import Mathlib

/-
Verification development for the capstone used-car pipeline
(live_search.py: fetch + per-block field extraction; value_model.py:
normalization, weighted scoring, ranking).

Modelling conventions:
- A pandas DataFrame is a list of records (row order = index order 0..n-1).
- A float64 column with NaN for missing data is Option ℚ / Option ℕ;
  Python floats are modelled as exact rationals.
- pandas sort_values on one column with the default kind="quicksort"
  delegates to nargsort, which reverses the values for a descending sort,
  argsorts them ascending with numpy's introsort, and reverses the
  resulting indexer.  The numpy introsort (npysort quicksort template:
  median-of-3 partition above a 15-element threshold, insertion sort below,
  heapsort once a global depth budget of 2*msb(n) partitions is spent) is
  embedded below; the heapsort fallback is modelled by the (also correct,
  possibly differently tie-ordered) insertion sort of the same segment.
- requests / BeautifulSoup are external effects: the HTTP outcome and the
  card selection soup.select('div[class^="styles_listing_box"]') are
  parameters of the fetch model; everything after them is embedded.
-/

/-- ListingRecord: one row of the DataFrame built by fetch_used_cars_live
(value_model.py consumes the price_sgd, mileage_km, depreciation_per_year
and year columns). -/
structure Car where
  title : Option String := none
  listing_url : Option String := none
  price_sgd : Option ℕ := none
  mileage_km : Option ℕ := none
  depreciation_per_year : Option ℕ := none
  year : Option ℕ := none
  coe_left_years : Option ℚ := none
  engine_cc : Option ℕ := none
  raw_text : String := ""
deriving DecidableEq

def dummyCar : Car := {}

/-- current_year constant of value_model.py line 44. -/
def current_year : ℚ := 2025

/-- vals.min() over the present (non-NaN) entries of a column; the 0 for an
all-absent column is never read (guarded by vals.empty at line 28). -/
def colMin (xs : List (Option ℚ)) : ℚ :=
  match xs.filterMap id with
  | [] => 0
  | v :: vs => vs.foldl min v

/-- vals.max() over the present (non-NaN) entries of a column. -/
def colMax (xs : List (Option ℚ)) : ℚ :=
  match xs.filterMap id with
  | [] => 0
  | v :: vs => vs.foldl max v

/-- norm_col of value_model.py lines 24-41: min-max normalization of one
column, ignoring NaNs.  NaN entries stay NaN (Option.map); an all-NaN
column yields all NaN; an all-equal column yields 0.5 for present entries. -/
def norm_col (xs : List (Option ℚ)) (higher_is_better : Bool) : List (Option ℚ) :=
  if (xs.filterMap id).isEmpty then xs.map fun _ => none
  else if colMax xs = colMin xs then xs.map (Option.map fun _ => (1 : ℚ) / 2)
  else if higher_is_better then
    xs.map (Option.map fun x => (x - colMin xs) / (colMax xs - colMin xs))
  else xs.map (Option.map fun x => (colMax xs - x) / (colMax xs - colMin xs))

/-- safe_val of value_model.py lines 59-60: missing normalized values are
treated as the neutral 0.5. -/
def safe_val (x : Option ℚ) : ℚ := x.getD (1 / 2)

/-- round half to even on ℚ (the rounding rule of np.round, modelled on
exact rationals). -/
def round_half_even (q : ℚ) : ℤ :=
  if q - ⌊q⌋ < 1 / 2 then ⌊q⌋
  else if 1 / 2 < q - ⌊q⌋ then ⌊q⌋ + 1
  else if ⌊q⌋ % 2 = 0 then ⌊q⌋ else ⌊q⌋ + 1

/-- np.round(·, 1): round to one decimal place. -/
def round1 (q : ℚ) : ℚ := (round_half_even (q * 10) : ℚ) / 10

/-- weighted composite of value_model.py lines 69-74 (price 0.35,
depreciation 0.30, mileage 0.20, age 0.15). -/
def rawScore (price_n depr_n mile_n age_n : ℚ) : ℚ :=
  0.35 * price_n + 0.30 * depr_n + 0.20 * mile_n + 0.15 * age_n

/-- one scored record before ranking (the DataFrame after line 77). -/
structure PreRow where
  car : Car
  car_age : Option ℚ
  price_norm : Option ℚ
  depr_norm : Option ℚ
  mileage_norm : Option ℚ
  age_norm : Option ℚ
  value_score : ℚ
deriving DecidableEq

def mkPreRow (c : Car) (g p d m a : Option ℚ) : PreRow :=
  { car := c, car_age := g, price_norm := p, depr_norm := d, mileage_norm := m,
    age_norm := a,
    value_score := round1 (rawScore (safe_val p) (safe_val d) (safe_val m) (safe_val a) * 100) }

def dummyPreRow : PreRow := mkPreRow dummyCar none none none none none

/-- zip the car column with the five derived columns into rows (the per-row
iteration of value_model.py lines 62-77). -/
def buildRows : List Car → List (Option ℚ) → List (Option ℚ) → List (Option ℚ) →
    List (Option ℚ) → List (Option ℚ) → List PreRow
  | c :: cs, g :: gs, p :: ps, d :: ds, m :: ms, a :: bs =>
      mkPreRow c g p d m a :: buildRows cs gs ps ds ms bs
  | _, _, _, _, _, _ => []

def carAgeCol (df : List Car) : List (Option ℚ) :=
  df.map fun c => c.year.map fun y => current_year - (y : ℚ)

def priceCol (df : List Car) : List (Option ℚ) :=
  df.map fun c => c.price_sgd.map fun n => (n : ℚ)

def deprCol (df : List Car) : List (Option ℚ) :=
  df.map fun c => c.depreciation_per_year.map fun n => (n : ℚ)

def mileageCol (df : List Car) : List (Option ℚ) :=
  df.map fun c => c.mileage_km.map fun n => (n : ℚ)

/-- the scored (unranked) rows: value_model.py lines 43-77. -/
def preRows (df : List Car) : List PreRow :=
  buildRows df (carAgeCol df)
    (norm_col (priceCol df) false)
    (norm_col (deprCol df) false)
    (norm_col (mileageCol df) false)
    (norm_col (carAgeCol df) false)

/- ---------- the numpy / pandas sort model ---------- -/

/-- element of an index list at a position (indices are into the original
row list; out-of-range reads return the junk value 0 and never happen on
the paths exercised with adequate fuel). -/
def getI (l : List ℕ) (i : ℕ) : ℕ := l.getD i 0

/-- exchange the entries at positions i and j (INTP_SWAP of npysort). -/
def swapL (l : List ℕ) (i j : ℕ) : List ℕ := (l.set i (getI l j)).set j (getI l i)

/-- the scan do ++pi; while (v[*pi] < vp): first position after k whose
value is not below the pivot, moving right, with at most fuel steps. -/
def scanUpA (f : ℕ → ℚ) (vp : ℚ) : ℕ → ℕ → ℕ
  | k, 0 => k
  | k, fuel + 1 => if f k < vp then scanUpA f vp (k + 1) fuel else k

def scanUp (f : ℕ → ℚ) (vp : ℚ) (i bound : ℕ) : ℕ :=
  scanUpA f vp (i + 1) (bound - (i + 1))

/-- the scan do --pj; while (vp < v[*pj]), moving left. -/
def scanDownA (f : ℕ → ℚ) (vp : ℚ) : ℕ → ℕ → ℕ
  | k, 0 => k
  | k, fuel + 1 => if vp < f k then scanDownA f vp (k - 1) fuel else k

def scanDown (f : ℕ → ℚ) (vp : ℚ) (j bound : ℕ) : ℕ :=
  scanDownA f vp (j - 1) (j - 1 - bound)

/-- the partition exchange loop of the npysort quicksort template
(pi/pj scans and swaps until the pointers cross); returns the final list
and the crossing position pi. -/
def partLoop (key : ℕ → ℚ) (vp : ℚ) (lo hiM1 : ℕ) : ℕ → List ℕ → ℕ → ℕ → List ℕ × ℕ
  | 0, l, i, _ => (l, i + 1)
  | fuel + 1, l, i, j =>
    let i2 := scanUp (fun k => key (getI l k)) vp i hiM1
    let j2 := scanDown (fun k => key (getI l k)) vp j lo
    if i2 < j2 then partLoop key vp lo hiM1 fuel (swapL l i2 j2) i2 j2
    else (l, i2)

/-- the three conditional exchanges that sort the values at positions
lo, pm, hi (the median-of-3 setup of the npysort quicksort). -/
def med3 (key : ℕ → ℚ) (l : List ℕ) (lo pm hi : ℕ) : List ℕ :=
  let l1 := if key (getI l pm) < key (getI l lo) then swapL l pm lo else l
  let l2 := if key (getI l1 hi) < key (getI l1 pm) then swapL l1 hi pm else l1
  if key (getI l2 pm) < key (getI l2 lo) then swapL l2 pm lo else l2

/-- one partition step of the npysort quicksort: median-of-3 pivot selection
over positions lo, lo+(hi-lo)/2, hi; pivot parked at hi-1; exchange loop;
final swap of the crossing position with the parked pivot. -/
def partitionSeg (key : ℕ → ℚ) (l : List ℕ) (lo hi : ℕ) : List ℕ × ℕ :=
  let pm := lo + (hi - lo) / 2
  let l3 := med3 key l lo pm hi
  let vp := key (getI l3 pm)
  let l4 := swapL l3 pm (hi - 1)
  let res := partLoop key vp lo (hi - 1) (hi - 1 - lo) l4 lo (hi - 1)
  (swapL res.1 res.2 (hi - 1), res.2)

/-- insert x into an ascending list, after any equal keys (the strict
comparison of the npysort insertion sort keeps equal keys in arrival
order). -/
def insertAsc (key : ℕ → ℚ) (x : ℕ) : List ℕ → List ℕ
  | [] => [x]
  | y :: ys => if key x < key y then x :: y :: ys else y :: insertAsc key x ys

/-- left-to-right insertion sort (the small-segment sort of npysort). -/
def insSortList (key : ℕ → ℚ) (l : List ℕ) : List ℕ :=
  l.foldl (fun acc x => insertAsc key x acc) []

/-- the sub-list of positions lo..hi. -/
def segOf (l : List ℕ) (lo hi : ℕ) : List ℕ := (l.drop lo).take (hi + 1 - lo)

/-- insertion sort of positions lo..hi in place, rest unchanged. -/
def insSortSeg (key : ℕ → ℚ) (l : List ℕ) (lo hi : ℕ) : List ℕ :=
  l.take lo ++ insSortList key (segOf l lo hi) ++ l.drop (hi + 1)

/-- SMALL_QUICKSORT of npysort: segments of more than 15+1 entries are
partitioned, smaller ones insertion sorted. -/
def npySmallQuicksort : ℕ := 15

/-- the npysort argsort quicksort driver on the segment lo..hi.  The C code
keeps one global depth budget that is decremented per partition and, when
exhausted, heapsorts the current segment; the budget threading below
(smaller partition first, as the C stack discipline does) reproduces that,
with the heapsort fallback modelled by the insertion sort of the same
segment (both fully sort it; only the unspecified tie order beyond the
depth budget differs).  fuel bounds the recursion depth; any fuel of at
least hi+1-lo is enough and the fuel-out branch is then unreachable. -/
def qsortGo (key : ℕ → ℚ) : ℕ → List ℕ → ℕ → ℕ → ℤ → List ℕ × ℤ
  | 0, l, _, _, depth => (l, depth)
  | fuel + 1, l, lo, hi, depth =>
    if hi - lo ≤ npySmallQuicksort then (insSortSeg key l lo hi, depth)
    else if depth < 0 then (insSortSeg key l lo hi, depth - 1)
    else
      let pr := partitionSeg key l lo hi
      if pr.2 - lo < hi - pr.2 then
        let r1 := qsortGo key fuel pr.1 lo (pr.2 - 1) (depth - 1)
        qsortGo key fuel r1.1 (pr.2 + 1) hi r1.2
      else
        let r1 := qsortGo key fuel pr.1 (pr.2 + 1) hi (depth - 1)
        qsortGo key fuel r1.1 lo (pr.2 - 1) r1.2

/-- np.argsort(v, kind="quicksort"): ascending argsort of v with the
npysort introsort; 2 * msb(n) is the partition depth budget. -/
def npArgsort (v : List ℚ) : List ℕ :=
  let n := v.length
  (qsortGo (fun i => v.getD i 0) n (List.range n) 0 (n - 1) (2 * (Nat.log2 n : ℤ))).1

/-- pandas nargsort for ascending=False on a NaN-free column: reverse the
values, argsort ascending, map through the reversed original positions,
reverse the indexer (pandas/core/sorting.py). -/
def nargsortDesc (scores : List ℚ) : List ℕ :=
  let n := scores.length
  let p := npArgsort scores.reverse
  (p.map fun k => n - 1 - k).reverse

/-- take the rows of pre in the order given by idxs. -/
def reorder (pre : List PreRow) (idxs : List ℕ) : List PreRow :=
  idxs.filterMap fun i => pre.get? i

def scoresOf (pre : List PreRow) : List ℚ := pre.map fun r => r.value_score

/-- df.sort_values(by="value_score", ascending=False) of value_model.py
line 80, default kind="quicksort". -/
def sortValuesDescRows (pre : List PreRow) : List PreRow :=
  reorder pre (nargsortDesc (scoresOf pre))

/-- a ranked record of the returned DataFrame. -/
structure ScoredCar where
  car : Car
  car_age : Option ℚ
  price_norm : Option ℚ
  depr_norm : Option ℚ
  mileage_norm : Option ℚ
  age_norm : Option ℚ
  value_score : ℚ
  value_rank : ℕ
deriving DecidableEq

def withRank (p : PreRow) (k : ℕ) : ScoredCar :=
  { car := p.car, car_age := p.car_age, price_norm := p.price_norm, depr_norm := p.depr_norm,
    mileage_norm := p.mileage_norm, age_norm := p.age_norm, value_score := p.value_score,
    value_rank := k }

def dummyScored : ScoredCar := withRank dummyPreRow 0

/-- df["value_rank"] = df.index + 1 after reset_index (lines 80-81). -/
def attachRanks : ℕ → List PreRow → List ScoredCar
  | _, [] => []
  | k, p :: ps => withRank p k :: attachRanks (k + 1) ps

/-- the derived columns a call of compute_value_scores adds to its input
DataFrame. -/
inductive DerivedCol
  | value_score
  | value_rank
  | car_age
  | price_norm
  | depr_norm
  | mileage_norm
  | age_norm
deriving DecidableEq

structure ScoreResult where
  rows : List ScoredCar
  addedCols : List DerivedCol
deriving DecidableEq

/-- compute_value_scores of value_model.py.  The empty-input branch
(lines 16-19) assigns empty value_score and value_rank columns and returns;
otherwise the car_age and four normalized columns are derived, the weighted
score is computed per row, rows are sorted by value_score descending
(pandas default quicksort) and value_rank = position + 1 is assigned. -/
def compute_value_scores (df : List Car) : ScoreResult :=
  if df.isEmpty then
    { rows := [], addedCols := [DerivedCol.value_score, DerivedCol.value_rank] }
  else
    { rows := attachRanks 1 (sortValuesDescRows (preRows df)),
      addedCols := [DerivedCol.car_age, DerivedCol.price_norm, DerivedCol.depr_norm,
                    DerivedCol.mileage_norm, DerivedCol.age_norm, DerivedCol.value_score,
                    DerivedCol.value_rank] }

/- ---------- live_search.py ---------- -/

/-- the Python \s class on the ASCII text handled here. -/
def isPyWs (c : Char) : Bool :=
  c = ' ' || c = '\t' || c = '\n' || c = '\r' || c = '\x0b' || c = '\x0c'

/-- the Python \w class (ASCII): letters, digits, underscore. -/
def isWordChar (c : Char) : Bool := c.isAlphanum || c = '_'

/-- the character class [\d,]. -/
def isDigitComma (c : Char) : Bool := c.isDigit || c = ','

/-- case-insensitive literal match (pattern given in lowercase); returns
the rest of the input on success. -/
def stripCI : List Char → List Char → Option (List Char)
  | [], l => some l
  | _ :: _, [] => none
  | p :: ps, c :: cs => if c.toLower = p then stripCI ps cs else none

def digitsToNat (ds : List Char) : ℕ :=
  ds.foldl (fun n c => 10 * n + (c.toNat - 48)) 0

/-- the _to_int helper (live_search.py lines 44-48): None stays None, every
non-digit is stripped, the remainder parses as an integer when nonempty. -/
def _to_int (s : Option String) : Option ℕ :=
  match s with
  | none => none
  | some str =>
    if str = "" then none
    else
      let ds := str.toList.filter Char.isDigit
      if ds.isEmpty then none else some (digitsToNat ds)

/-- one whitespace run becomes one space (re.sub(r"\s+", " ", t)). -/
def squashWs : List Char → List Char
  | [] => []
  | [c] => if isPyWs c then [' '] else [c]
  | c :: d :: cs =>
    if isPyWs c then
      if isPyWs d then squashWs (d :: cs) else ' ' :: squashWs (d :: cs)
    else c :: squashWs (d :: cs)

def stripSpaces (l : List Char) : List Char :=
  ((l.dropWhile (fun c => c = ' ')).reverse.dropWhile (fun c => c = ' ')).reverse

/-- the _clean helper (live_search.py lines 38-41). -/
def _clean (t : String) : String := String.mk (stripSpaces (squashWs t.toList))

/-- a match of \$\s*([\d,]+) anchored at the head of the input; returns
group 1. -/
def matchPriceAt : List Char → Option (List Char)
  | '$' :: rest =>
    let r := rest.dropWhile isPyWs
    let g := r.takeWhile isDigitComma
    if g.isEmpty then none else some g
  | _ => none

/-- re.search: try the anchored matcher at every start position, leftmost
first. -/
def firstMatch {α : Type} (m : List Char → Option α) : List Char → Option α
  | [] => none
  | c :: cs =>
    match m (c :: cs) with
    | some r => some r
    | none => firstMatch m cs

/-- price extraction (live_search.py lines 138-143). -/
def extract_price (raw_text : String) : Option ℕ :=
  if raw_text = "" then none
  else (firstMatch matchPriceAt raw_text.toList).bind fun g => _to_int (some (String.mk g))

/-- a match of ([\d,]+)\s*km\b (re.I) anchored at the head.  The digit-comma
run is taken greedily: a shorter run leaves a digit or comma in front,
which is neither whitespace nor the k of km, so no backtracking succeeds. -/
def matchMileageAt (l : List Char) : Option (List Char) :=
  let g := l.takeWhile isDigitComma
  if g.isEmpty then none
  else
    let r := (l.drop g.length).dropWhile isPyWs
    match stripCI ['k', 'm'] r with
    | some rest => if isWordChar (rest.headD ' ') then none else some g
    | none => none

/-- mileage extraction (live_search.py lines 145-150). -/
def extract_mileage (raw_text : String) : Option ℕ :=
  if raw_text = "" then none
  else (firstMatch matchMileageAt raw_text.toList).bind fun g => _to_int (some (String.mk g))

/-- a match of \$\s*([\d,]+)/yr (re.I) anchored at the head. -/
def matchAmountPerYearAt : List Char → Option (List Char)
  | '$' :: rest =>
    let r := rest.dropWhile isPyWs
    let g := r.takeWhile isDigitComma
    if g.isEmpty then none
    else
      match stripCI ['/', 'y', 'r'] (r.drop g.length) with
      | some _ => some g
      | none => none
  | _ => none

/-- a match of Depreciation[^\x24]*\$\s*([\d,]+)/yr (re.I) anchored at the
head.  [^\x24]* cannot cross a dollar sign, so only the first dollar sign
after the label is a candidate. -/
def matchDeprLabeledAt (l : List Char) : Option (List Char) :=
  match stripCI "depreciation".toList l with
  | none => none
  | some rest => matchAmountPerYearAt (rest.dropWhile (fun c => c ≠ '$'))

/-- depreciation extraction (live_search.py lines 152-159): a label-anchored
match is preferred, any $amount/yr accepted as fallback. -/
def extract_depreciation (raw_text : String) : Option ℕ :=
  if raw_text = "" then none
  else
    match firstMatch matchDeprLabeledAt raw_text.toList with
    | some g => _to_int (some (String.mk g))
    | none =>
      (firstMatch matchAmountPerYearAt raw_text.toList).bind fun g =>
        _to_int (some (String.mk g))

def checkCC (g rest : List Char) : Option (List Char) :=
  let r := rest.dropWhile isPyWs
  match stripCI ['c', 'c'] r with
  | some after => if isWordChar (after.headD ' ') then none else some g
  | none => none

/-- a match of (\d{3,4})\s*cc\b (re.I) anchored at the head.  With four or
more digits available only the greedy four-digit attempt can succeed (a
three-digit retreat leaves a digit in front, which never matches \s*cc). -/
def matchEngineAt (l : List Char) : Option (List Char) :=
  let ds := l.takeWhile Char.isDigit
  if 4 ≤ ds.length then checkCC (ds.take 4) (l.drop 4)
  else if ds.length = 3 then checkCC ds (l.drop 3)
  else none

/-- engine capacity extraction (live_search.py lines 161-166). -/
def extract_engine_cc (raw_text : String) : Option ℕ :=
  if raw_text = "" then none
  else (firstMatch matchEngineAt raw_text.toList).bind fun g => _to_int (some (String.mk g))

/-- a match of \b(20\d{2}|19\d{2})\b anchored at the head, given whether the
preceding character was a word character. -/
def matchYearAt (prevWord : Bool) (l : List Char) : Option (List Char) :=
  if prevWord then none
  else
    match l with
    | c1 :: c2 :: c3 :: c4 :: rest =>
      if (c1 == '2' && c2 == '0' || c1 == '1' && c2 == '9') && c3.isDigit && c4.isDigit
          && !isWordChar (rest.headD ' ') then
        some [c1, c2, c3, c4]
      else none
    | _ => none

/-- re.search with the word-boundary context threaded along. -/
def firstMatchB {α : Type} (m : Bool → List Char → Option α) : Bool → List Char → Option α
  | _, [] => none
  | pw, c :: cs =>
    match m pw (c :: cs) with
    | some r => some r
    | none => firstMatchB m (isWordChar c) cs

/-- year extraction (live_search.py lines 168-177); int() on four digits
cannot raise, so the try/except adds nothing. -/
def extract_year (raw_text : String) : Option ℕ :=
  if raw_text = "" then none
  else (firstMatchB matchYearAt false raw_text.toList).map fun g => digitsToNat g

/-- the tail \s*(?:yr|yrs)\s*COE\s*left (re.I) of the COE pattern; the
alternation tries yr first, then yrs. -/
def coeTailCOE (l : List Char) : Bool :=
  match stripCI ['c', 'o', 'e'] (l.dropWhile isPyWs) with
  | some a2 => (stripCI ['l', 'e', 'f', 't'] (a2.dropWhile isPyWs)).isSome
  | none => false

def coeTail (l : List Char) : Bool :=
  let r := l.dropWhile isPyWs
  match stripCI ['y', 'r'] r with
  | some a1 =>
    coeTailCOE a1 ||
      (match stripCI ['s'] a1 with
       | some a1s => coeTailCOE a1s
       | none => false)
  | none => false

/-- a match of (\d+(?:\.\d+)?) before the COE tail, anchored at the head;
the greedy optional fraction is tried first, the bare integer second. -/
def matchCoeAt (l : List Char) : Option (List Char × List Char) :=
  let d1 := l.takeWhile Char.isDigit
  if d1.isEmpty then none
  else
    let r := l.drop d1.length
    let withFrac : Option (List Char × List Char) :=
      match r with
      | '.' :: r2 =>
        let d2 := r2.takeWhile Char.isDigit
        if d2.isEmpty then none
        else if coeTail (r2.drop d2.length) then some (d1, d2) else none
      | _ => none
    match withFrac with
    | some g => some g
    | none => if coeTail r then some (d1, []) else none

/-- COE-left extraction (live_search.py lines 179-191); float() on the
matched decimal literal is modelled exactly on ℚ. -/
def extract_coe_left (raw_text : String) : Option ℚ :=
  if raw_text = "" then none
  else
    (firstMatch matchCoeAt raw_text.toList).map fun g =>
      (digitsToNat g.1 : ℚ) + (digitsToNat g.2 : ℚ) / (10 : ℚ) ^ g.2.length

/-- one listing card as BeautifulSoup hands it to the extraction loop:
its visible text card.get_text(" ") and, when present, the first link
matching a[href*='/used-cars/info/'] as (visible text, href attribute with
a missing attribute already defaulted to ""). -/
structure Card where
  text : String
  link : Option (String × String)
deriving DecidableEq

/-- the loop body of live_search.py lines 121-205: one Card to one row. -/
def cardToRow (card : Card) : Car :=
  let raw_text := _clean card.text
  let tu : Option String × Option String :=
    match card.link with
    | some (t, href) =>
      (some (_clean t),
       if href.startsWith "/" then some ("https://www.sgcarmart.com" ++ href)
       else if href = "" then none else some href)
    | none => (none, none)
  { title := tu.1, listing_url := tu.2,
    price_sgd := extract_price raw_text,
    mileage_km := extract_mileage raw_text,
    depreciation_per_year := extract_depreciation raw_text,
    year := extract_year raw_text,
    coe_left_years := extract_coe_left raw_text,
    engine_cc := extract_engine_cc raw_text,
    raw_text := raw_text }

/-- the card loop with the break once len(rows) >= max_results
(lines 121-208): the count is checked after each append. -/
def rowsLoop : ℕ → List Card → List Car
  | _, [] => []
  | m, c :: cs => cardToRow c :: (if m ≤ 1 then [] else rowsLoop (m - 1) cs)

/-- the rotating desktop User-Agent pool (live_search.py lines 20-27). -/
def UAS : List String :=
  ["Mozilla/5.0 (Macintosh; Intel Mac OS X 10_15_7) AppleWebKit/537.36 (KHTML, like Gecko) Chrome/122.0 Safari/537.36",
   "Mozilla/5.0 (Windows NT 10.0; Win64; x64) AppleWebKit/537.36 (KHTML, like Gecko) Chrome/120.0 Safari/537.36",
   "Mozilla/5.0 (X11; Linux x86_64) AppleWebKit/537.36 (KHTML, like Gecko) Chrome/121.0 Safari/537.36"]

def BASE_URL : String := "https://www.sgcarmart.com/used-cars/listing"

/-- _headers (lines 32-34): random.choice(UAS) is a stateless selection
from the pool, modelled by the drawn index. -/
def _headers (choice : Fin 3) : List (String × String) :=
  [("User-Agent", UAS.getD choice.val "")]

/-- a query parameter value (the params dict holds str and int values). -/
inductive PVal
  | str (s : String)
  | int (n : ℤ)
deriving DecidableEq

/-- Python truthiness of the int|None filter arguments: None and 0 are
falsy. -/
def pyTruthyInt : Option ℤ → Bool
  | none => false
  | some n => n != 0

/-- Python truthiness of the str|None make argument: None and "" are
falsy. -/
def pyTruthyStr : Option String → Bool
  | none => false
  | some s => s != ""

/-- the params dict of live_search.py lines 80-91, in insertion order. -/
def buildParams (budget_min budget_max : Option ℤ) (make : Option String) :
    List (String × PVal) :=
  let base := [("avl", PVal.str "a"), ("limit", PVal.int 60), ("page", PVal.int 1)]
  let p1 := if pyTruthyInt budget_min then base ++ [("PR1", PVal.int (budget_min.getD 0))] else base
  let p2 := if pyTruthyInt budget_max then p1 ++ [("PR2", PVal.int (budget_max.getD 0))] else p1
  if pyTruthyStr make then p2 ++ [("Make", PVal.str (make.getD ""))] else p2

/-- the one outbound request of a fetch call. -/
structure Request where
  url : String
  params : List (String × PVal)
  headers : List (String × String)
deriving DecidableEq

/-- what the network returned for the request: a raised exception from
requests.get, or a status code with a response body. -/
inductive FetchOutcome
  | netError
  | response (status : ℕ) (html : String)
deriving DecidableEq

/-- the post-request part of fetch_used_cars_live (lines 96-212),
parameterized by the BeautifulSoup card selection selectCards. -/
def processOutcome (selectCards : String → List Card) (max_results : ℕ)
    (o : FetchOutcome) : List Car :=
  match o with
  | FetchOutcome.netError => []
  | FetchOutcome.response status html =>
    if status ≠ 200 then []
    else
      let cards := selectCards html
      if cards.isEmpty then []
      else rowsLoop max_results cards

/-- fetch_used_cars_live (lines 52-212): builds the one request (with the
randomly selected User-Agent) and turns the network outcome into the
returned DataFrame. -/
def fetch_used_cars_live (selectCards : String → List Card)
    (budget_min budget_max : Option ℤ) (make : Option String) (max_results : ℕ)
    (choice : Fin 3) (o : FetchOutcome) : Request × List Car :=
  ({ url := BASE_URL, params := buildParams budget_min budget_max make,
     headers := _headers choice },
   processOutcome selectCards max_results o)

/- ---------- theorems: extraction, fetch, request shaping ---------- -/

/- Batteries marks the ℚ field operations irreducible; restore the default
transparency inside this file so that closed statements about the embedded
pipeline can be settled by evaluation (decide). -/
attribute [local semireducible] Rat.add Rat.mul Rat.sub Rat.inv Rat.ofScientific

/-- the example block text of the spec (section 8). -/
def c7BlockText : String :=
  "Toyota Corolla 2019 $58,000 45,000 km 1800cc Depreciation $9,200/yr 3.5 yrs COE left"

set_option maxRecDepth 4000 in
/-- C7: on the example block text the per-field extraction yields
price_sgd=58000, mileage_km=45000, engine_cc=1800,
depreciation_per_year=9200, year=2019 and coe_left_years=3.5. -/
theorem c7_extraction_example :
    extract_price c7BlockText = some 58000 ∧
    extract_mileage c7BlockText = some 45000 ∧
    extract_engine_cc c7BlockText = some 1800 ∧
    extract_depreciation c7BlockText = some 9200 ∧
    extract_year c7BlockText = some 2019 ∧
    extract_coe_left c7BlockText = some (7 / 2 : ℚ) := by
  refine ⟨?_, ?_, ?_, ?_, ?_, ?_⟩ <;> decide

/-- C8: every Fetcher failure (raised network error, non-200 status, or a
page with no recognizable listing cards) returns the empty row list; no
partial batch is produced. -/
theorem c8_failures_yield_empty
    (selectCards : String → List Card) (bmin bmax : Option ℤ) (mk : Option String)
    (m : ℕ) (c : Fin 3) (o : FetchOutcome)
    (h : o = FetchOutcome.netError ∨
      (∃ st html, o = FetchOutcome.response st html ∧ st ≠ 200) ∨
      (∃ html, o = FetchOutcome.response 200 html ∧ selectCards html = [])) :
    (fetch_used_cars_live selectCards bmin bmax mk m c o).2 = [] := by
  rcases h with h | ⟨st, html, rfl, hst⟩ | ⟨html, rfl, hcards⟩
  · subst h; rfl
  · simp [fetch_used_cars_live, processOutcome, hst]
  · simp [fetch_used_cars_live, processOutcome, hcards]

theorem c8_failures_yield_empty_witness :
    (fetch_used_cars_live (fun _ => []) none none none 40 0 FetchOutcome.netError).2 = [] :=
  c8_failures_yield_empty (fun _ => []) none none none 40 0 FetchOutcome.netError (Or.inl rfl)

/-- C9: for a fixed network outcome the extracted rows, and the scored and
ranked output computed from them, do not depend on the randomly drawn
User-Agent; the choice only changes the outbound request header. -/
theorem c9_header_choice_noninterference
    (selectCards : String → List Card) (bmin bmax : Option ℤ) (mk : Option String)
    (m : ℕ) (o : FetchOutcome) (c1 c2 : Fin 3) :
    (fetch_used_cars_live selectCards bmin bmax mk m c1 o).2 =
      (fetch_used_cars_live selectCards bmin bmax mk m c2 o).2 ∧
    compute_value_scores (fetch_used_cars_live selectCards bmin bmax mk m c1 o).2 =
      compute_value_scores (fetch_used_cars_live selectCards bmin bmax mk m c2 o).2 :=
  ⟨rfl, rfl⟩

/-- C10: a zero minimum or maximum price (or an empty make string) is falsy
in Python, so the corresponding query parameter is omitted and the request
equals the one built without the filter. -/
theorem c10_zero_filter_like_absent :
    (∀ bmax mk, buildParams (some 0) bmax mk = buildParams none bmax mk) ∧
    (∀ bmin mk, buildParams bmin (some 0) mk = buildParams bmin none mk) ∧
    (∀ bmin bmax, buildParams bmin bmax (some "") = buildParams bmin bmax none) ∧
    (∀ bmax mk, (buildParams (some 0) bmax mk).lookup "PR1" = none) ∧
    (∀ selectCards bmax mk m c o,
      fetch_used_cars_live selectCards (some 0) bmax mk m c o =
        fetch_used_cars_live selectCards none bmax mk m c o) := by
  have h1 : ∀ bmax mk, buildParams (some 0) bmax mk = buildParams none bmax mk := by
    intro bmax mk; rfl
  have h4 : ∀ bmax mk, (buildParams none bmax mk).lookup "PR1" = none := by
    intro bmax mk
    unfold buildParams
    rcases pyTruthyInt bmax <;> rcases pyTruthyStr mk <;> simp [List.lookup]
  refine ⟨h1, ?_, ?_, ?_, ?_⟩
  · intro bmin mk; unfold buildParams; rfl
  · intro bmin bmax; unfold buildParams; rfl
  · intro bmax mk; rw [h1]; exact h4 bmax mk
  · intro selectCards bmax mk m c o
    unfold fetch_used_cars_live
    rw [h1]

/- ---------- theorems: scoring and ranking ---------- -/

/-- seventeen pairwise-distinct records that all score 50.0 (every scored
attribute absent). -/
def tiedBatch17 : List Car := (List.range 17).map fun k => { title := some (toString k) }

set_option maxRecDepth 8000 in
/-- C1 evidence: pandas sort_values with its default kind="quicksort" is not
stable.  On seventeen records tied at value_score 50.0 the numpy introsort
partition permutes the batch: the ranked output comes back in title order
0,9,15,14,13,12,11,10,8,1,7,6,5,4,3,2,16 instead of the input order
0,1,...,16 required by the claim. -/
theorem c1_quicksort_reorders_ties :
    ((compute_value_scores tiedBatch17).rows.map fun r => r.car.title) =
      [some "0", some "9", some "15", some "14", some "13", some "12", some "11", some "10",
       some "8", some "1", some "7", some "6", some "5", some "4", some "3", some "2",
       some "16"] ∧
    ((compute_value_scores tiedBatch17).rows.map fun r => r.car.title) ≠
      (tiedBatch17.map fun c => c.title) ∧
    (∀ r ∈ (compute_value_scores tiedBatch17).rows, r.value_score = 50) := by
  refine ⟨?_, ?_, ?_⟩ <;> decide

/-- C2 as stated is false on the code: scoring the empty batch does add
derived columns, namely the (empty) value_score and value_rank columns. -/
theorem c2_counterexample :
    ¬ ((compute_value_scores []).rows = [] ∧ (compute_value_scores []).addedCols = []) := by
  decide

/-- C2 amended: scoring an empty batch yields an empty batch with no error;
no car_age or normalized-score columns are added, but empty value_score and
value_rank columns are. -/
theorem c2_empty_batch :
    (compute_value_scores []).rows = [] ∧
    (compute_value_scores []).addedCols = [DerivedCol.value_score, DerivedCol.value_rank] := by
  decide

/-- a record with a present price next to a record without one. -/
def c3CarPresent : Car := { title := some "haspr", price_sgd := some 50000 }

def c3CarAbsent : Car := { title := some "nopr" }

set_option maxRecDepth 2000 in
/-- C3 as stated is false on the code: in a batch where one record has
price_sgd, the other record's normalized price score is still absent (the
NaN propagates through the normalization), while the claim requires every
record to get a present normalized score. -/
theorem c3_counterexample :
    (∃ r ∈ (compute_value_scores [c3CarPresent, c3CarAbsent]).rows,
      r.car.price_sgd.isSome) ∧
    ¬ (∀ r ∈ (compute_value_scores [c3CarPresent, c3CarAbsent]).rows,
      r.price_norm.isSome) := by
  constructor <;> decide

/- ---------- basic facts about positions, set and swap ---------- -/

theorem getI_eq_getElem (l : List ℕ) (i : ℕ) (h : i < l.length) : getI l i = l[i] :=
  List.getD_eq_getElem l 0 h

theorem getI_of_le (l : List ℕ) (i : ℕ) (h : l.length ≤ i) : getI l i = 0 :=
  List.getD_eq_default l 0 h

theorem length_swapL (l : List ℕ) (i j : ℕ) : (swapL l i j).length = l.length := by
  simp [swapL]

theorem getI_set_self (l : List ℕ) (i : ℕ) (a : ℕ) (h : i < l.length) :
    getI (l.set i a) i = a := by
  rw [getI_eq_getElem _ _ (by simpa using h)]
  exact List.getElem_set_self _

theorem getI_set_ne (l : List ℕ) (i j : ℕ) (a : ℕ) (h : i ≠ j) :
    getI (l.set i a) j = getI l j := by
  by_cases hj : j < l.length
  · rw [getI_eq_getElem _ _ (by simpa using hj), getI_eq_getElem _ _ hj]
    exact List.getElem_set_ne h _
  · rw [getI_of_le _ _ (by simpa using Nat.le_of_not_lt hj),
      getI_of_le _ _ (Nat.le_of_not_lt hj)]

theorem getI_swapL_left (l : List ℕ) (i j : ℕ) (hi : i < l.length) (hj : j < l.length) :
    getI (swapL l i j) i = getI l j := by
  unfold swapL
  by_cases hij : i = j
  · subst hij; rw [getI_set_self _ _ _ (by simpa using hi)]
  · rw [getI_set_ne _ _ _ _ (Ne.symm hij), getI_set_self _ _ _ hi]

theorem getI_swapL_right (l : List ℕ) (i j : ℕ) (hj : j < l.length) :
    getI (swapL l i j) j = getI l i := by
  unfold swapL
  rw [getI_set_self _ _ _ (by simpa using hj)]

theorem getI_swapL_other (l : List ℕ) (i j k : ℕ) (hik : k ≠ i) (hjk : k ≠ j) :
    getI (swapL l i j) k = getI l k := by
  unfold swapL
  rw [getI_set_ne _ _ _ _ (Ne.symm hjk), getI_set_ne _ _ _ _ (Ne.symm hik)]

theorem set_getI_self (l : List ℕ) (i : ℕ) : l.set i (getI l i) = l := by
  induction l generalizing i with
  | nil => rfl
  | cons x xs ih =>
    cases i with
    | zero => rfl
    | succ n => simpa [List.set, getI, List.getD] using ih n

theorem swapL_self (l : List ℕ) (i : ℕ) : swapL l i i = l := by
  unfold swapL
  rw [set_getI_self, set_getI_self]

theorem extract_cons_perm (xs : List ℕ) (m : ℕ) (x : ℕ) (h : m < xs.length) :
    (getI xs m :: xs.set m x).Perm (x :: xs) := by
  induction xs generalizing m with
  | nil => simp at h
  | cons y ys ih =>
    cases m with
    | zero => simpa [getI, List.getD] using List.Perm.swap x y ys
    | succ n =>
      have hn : n < ys.length := by simpa using h
      have step : (getI ys n :: y :: ys.set n x).Perm (y :: getI ys n :: ys.set n x) :=
        List.Perm.swap y (getI ys n) (ys.set n x)
      have ihs : (y :: getI ys n :: ys.set n x).Perm (y :: x :: ys) :=
        List.Perm.cons y (ih n hn)
      have last : (y :: x :: ys).Perm (x :: y :: ys) := List.Perm.swap x y ys
      have h1 : getI (y :: ys) (n + 1) = getI ys n := by simp [getI, List.getD]
      have h2 : (y :: ys).set (n + 1) x = y :: ys.set n x := rfl
      rw [h1, h2]
      exact (step.trans ihs).trans last

theorem count_set_balance (ys : List ℕ) (m v x : ℕ) (hm : m < ys.length) :
    (ys.set m v).count x + List.count x [getI ys m] = ys.count x + List.count x [v] := by
  have hperm : (getI ys m :: ys.set m v).Perm (v :: ys) := extract_cons_perm ys m v hm
  have := List.perm_iff_count.mp hperm x
  simp [List.count_cons] at this ⊢
  omega

theorem swapL_perm (l : List ℕ) (i j : ℕ) (hi : i < l.length) (hj : j < l.length) :
    (swapL l i j).Perm l := by
  by_cases hij : i = j
  · subst hij; rw [swapL_self]
  · rw [List.perm_iff_count]
    intro x
    have e1 := count_set_balance l i (getI l j) x hi
    have e2 := count_set_balance (l.set i (getI l j)) j (getI l i) x (by simpa using hj)
    rw [getI_set_ne _ _ _ _ hij] at e2
    unfold swapL
    simp [List.count_cons] at e1 e2 ⊢
    omega

/- ---------- segment permutations ---------- -/

/-- l2 differs from l only by a permutation of the entries at positions
lo..hi. -/
structure SegPerm (lo hi : ℕ) (l l2 : List ℕ) : Prop where
  len : l2.length = l.length
  outside : ∀ k, k < lo ∨ hi < k → getI l2 k = getI l k
  perm : l2.Perm l

theorem SegPerm.refl (lo hi : ℕ) (l : List ℕ) : SegPerm lo hi l l :=
  ⟨rfl, fun _ _ => rfl, List.Perm.refl l⟩

theorem SegPerm.comp {lo hi : ℕ} {l l2 l3 : List ℕ}
    (h1 : SegPerm lo hi l l2) (h2 : SegPerm lo hi l2 l3) : SegPerm lo hi l l3 :=
  ⟨h2.len.trans h1.len, fun k hk => (h2.outside k hk).trans (h1.outside k hk),
   h2.perm.trans h1.perm⟩

theorem SegPerm.mono {lo hi lo2 hi2 : ℕ} {l l2 : List ℕ}
    (hlo : lo ≤ lo2) (hhi : hi2 ≤ hi) (h : SegPerm lo2 hi2 l l2) : SegPerm lo hi l l2 :=
  ⟨h.len, fun k hk => h.outside k (by omega), h.perm⟩

theorem SegPerm.ofSwap {lo hi : ℕ} {l : List ℕ} {i j : ℕ}
    (hloi : lo ≤ i) (hihi : i ≤ hi) (hloj : lo ≤ j) (hjhi : j ≤ hi)
    (hi2 : i < l.length) (hj2 : j < l.length) : SegPerm lo hi l (swapL l i j) :=
  ⟨length_swapL l i j,
   fun k hk => getI_swapL_other l i j k (by omega) (by omega),
   swapL_perm l i j hi2 hj2⟩

/- ---------- segments as sub-lists ---------- -/

theorem length_segOf {l : List ℕ} {lo hi : ℕ} (hhi : hi < l.length) :
    (segOf l lo hi).length = hi + 1 - lo := by
  simp only [segOf, List.length_take, List.length_drop]
  omega

theorem getI_segOf {l : List ℕ} {lo hi j : ℕ} (hhi : hi < l.length)
    (hj : j < (segOf l lo hi).length) :
    getI (segOf l lo hi) j = getI l (lo + j) := by
  have hj2 : lo + j < l.length := by rw [length_segOf hhi] at hj; omega
  rw [getI_eq_getElem _ _ hj, getI_eq_getElem _ _ hj2]
  simp only [segOf] at hj ⊢
  rw [List.getElem_take, List.getElem_drop]

theorem getI_mem_segOf {l : List ℕ} {lo hi k : ℕ} (hlo : lo ≤ k) (hk : k ≤ hi)
    (hhi : hi < l.length) : getI l k ∈ segOf l lo hi := by
  have hk2 : k < l.length := by omega
  have hj : k - lo < (segOf l lo hi).length := by rw [length_segOf hhi]; omega
  rw [List.mem_iff_getElem]
  refine ⟨k - lo, hj, ?_⟩
  rw [← getI_eq_getElem _ _ hj, getI_segOf hhi hj, getI_eq_getElem l k hk2,
    getI_eq_getElem l (lo + (k - lo)) (by omega)]
  congr 1
  omega

theorem mem_segOf_values {l : List ℕ} {lo hi : ℕ} (hhi : hi < l.length)
    (x : ℕ) (hx : x ∈ segOf l lo hi) : ∃ k, lo ≤ k ∧ k ≤ hi ∧ getI l k = x := by
  rw [List.mem_iff_getElem] at hx
  obtain ⟨j, hj, hval⟩ := hx
  have hj2 := hj
  rw [length_segOf hhi] at hj2
  refine ⟨lo + j, Nat.le_add_right lo j, by omega, ?_⟩
  rw [← getI_segOf hhi hj, getI_eq_getElem _ _ hj, hval]

theorem segOf_decompose (l : List ℕ) (lo hi : ℕ) (hlo : lo ≤ hi + 1) (hhi : hi < l.length) :
    l = l.take lo ++ segOf l lo hi ++ l.drop (hi + 1) := by
  have h1 : segOf l lo hi ++ l.drop (hi + 1) = l.drop lo := by
    have hdd : (l.drop lo).drop (hi + 1 - lo) = l.drop (hi + 1) := by
      rw [List.drop_drop]
      congr 1
      omega
    rw [segOf, ← hdd, List.take_append_drop]
  rw [List.append_assoc, h1, List.take_append_drop]

theorem take_eq_of_segPerm {lo hi : ℕ} {l l2 : List ℕ} (h : SegPerm lo hi l l2) :
    l2.take lo = l.take lo := by
  apply List.ext_getElem
  · simp [h.len]
  · intro k h1 h2
    have hk : k < lo := by simp at h1; omega
    rw [List.getElem_take, List.getElem_take]
    have hkl : k < l.length := by simp at h2; omega
    have hkl2 : k < l2.length := by rw [h.len]; exact hkl
    rw [← getI_eq_getElem l k hkl, ← getI_eq_getElem l2 k hkl2]
    exact h.outside k (Or.inl hk)

theorem drop_eq_of_segPerm {lo hi : ℕ} {l l2 : List ℕ} (h : SegPerm lo hi l l2) :
    l2.drop (hi + 1) = l.drop (hi + 1) := by
  apply List.ext_getElem
  · simp [h.len]
  · intro k h1 h2
    rw [List.getElem_drop, List.getElem_drop]
    have hkl : hi + 1 + k < l.length := by simp at h2; omega
    have hkl2 : hi + 1 + k < l2.length := by rw [h.len]; exact hkl
    rw [← getI_eq_getElem l _ hkl, ← getI_eq_getElem l2 _ hkl2]
    exact h.outside (hi + 1 + k) (Or.inr (by omega))

theorem segOf_perm_of_segPerm {lo hi : ℕ} {l l2 : List ℕ} (h : SegPerm lo hi l l2)
    (hlo : lo ≤ hi + 1) (hhi : hi < l.length) :
    (segOf l2 lo hi).Perm (segOf l lo hi) := by
  have hhi2 : hi < l2.length := by rw [h.len]; exact hhi
  have d1 := segOf_decompose l lo hi hlo hhi
  have d2 := segOf_decompose l2 lo hi hlo hhi2
  rw [List.perm_iff_count]
  intro x
  have c1 : l.count x = (l.take lo).count x + (segOf l lo hi).count x + (l.drop (hi + 1)).count x := by
    conv_lhs => rw [d1]
    simp [List.count_append]
    omega
  have c2 : l2.count x = (l2.take lo).count x + (segOf l2 lo hi).count x + (l2.drop (hi + 1)).count x := by
    conv_lhs => rw [d2]
    simp [List.count_append]
    omega
  have ceq : l2.count x = l.count x := List.perm_iff_count.mp h.perm x
  rw [take_eq_of_segPerm h, drop_eq_of_segPerm h] at c2
  omega

/-- values at segment positions of l2 come from segment positions of l. -/
theorem segPerm_value_source {lo hi : ℕ} {l l2 : List ℕ} (h : SegPerm lo hi l l2)
    (hlo : lo ≤ hi + 1) (hhi : hi < l.length) {k : ℕ} (hk1 : lo ≤ k) (hk2 : k ≤ hi) :
    ∃ m, lo ≤ m ∧ m ≤ hi ∧ getI l m = getI l2 k := by
  have hhi2 : hi < l2.length := by rw [h.len]; exact hhi
  have hmem : getI l2 k ∈ segOf l2 lo hi := getI_mem_segOf hk1 hk2 hhi2
  have hmem2 : getI l2 k ∈ segOf l lo hi :=
    (segOf_perm_of_segPerm h hlo hhi).mem_iff.mp hmem
  exact mem_segOf_values hhi _ hmem2

/- ---------- the partition scans ---------- -/

theorem scanUpA_spec (f : ℕ → ℚ) (vp : ℚ) :
    ∀ (fuel k : ℕ), ¬ f (k + fuel) < vp →
    k ≤ scanUpA f vp k fuel ∧ scanUpA f vp k fuel ≤ k + fuel ∧
    ¬ f (scanUpA f vp k fuel) < vp ∧
    ∀ m, k ≤ m → m < scanUpA f vp k fuel → f m < vp := by
  intro fuel
  induction fuel with
  | zero =>
    intro k hstop
    simp only [scanUpA]
    exact ⟨Nat.le_refl k, by omega, by simpa using hstop, fun m h1 h2 => by omega⟩
  | succ n ih =>
    intro k hstop
    by_cases h : f k < vp
    · have hstop2 : ¬ f (k + 1 + n) < vp := by
        have : k + 1 + n = k + (n + 1) := by omega
        rw [this]; exact hstop
      obtain ⟨b1, b2, b3, b4⟩ := ih (k + 1) hstop2
      simp only [scanUpA, if_pos h]
      refine ⟨by omega, by omega, b3, ?_⟩
      intro m h1 h2
      rcases Nat.eq_or_lt_of_le h1 with rfl | h1s
      · exact h
      · exact b4 m h1s h2
    · simp only [scanUpA, if_neg h]
      exact ⟨Nat.le_refl k, by omega, h, fun m h1 h2 => by omega⟩

theorem scanDownA_spec (f : ℕ → ℚ) (vp : ℚ) :
    ∀ (fuel k : ℕ), fuel ≤ k → ¬ vp < f (k - fuel) →
    k - fuel ≤ scanDownA f vp k fuel ∧ scanDownA f vp k fuel ≤ k ∧
    ¬ vp < f (scanDownA f vp k fuel) ∧
    ∀ m, scanDownA f vp k fuel < m → m ≤ k → vp < f m := by
  intro fuel
  induction fuel with
  | zero =>
    intro k hk hstop
    simp only [scanDownA]
    exact ⟨by omega, Nat.le_refl k, by simpa using hstop, fun m h1 h2 => by omega⟩
  | succ n ih =>
    intro k hk hstop
    by_cases h : vp < f k
    · have hk2 : n ≤ k - 1 := by omega
      have hstop2 : ¬ vp < f (k - 1 - n) := by
        have : k - 1 - n = k - (n + 1) := by omega
        rw [this]; exact hstop
      obtain ⟨b1, b2, b3, b4⟩ := ih (k - 1) hk2 hstop2
      simp only [scanDownA, if_pos h]
      refine ⟨by omega, by omega, b3, ?_⟩
      intro m h1 h2
      rcases Nat.eq_or_lt_of_le h2 with rfl | h2s
      · exact h
      · exact b4 m h1 (by omega)
    · simp only [scanDownA, if_neg h]
      exact ⟨by omega, Nat.le_refl k, h, fun m h1 h2 => by omega⟩

theorem scanUp_spec (f : ℕ → ℚ) (vp : ℚ) (i bound : ℕ) (hib : i < bound)
    (hstop : ¬ f bound < vp) :
    i < scanUp f vp i bound ∧ scanUp f vp i bound ≤ bound ∧
    ¬ f (scanUp f vp i bound) < vp ∧
    ∀ m, i < m → m < scanUp f vp i bound → f m < vp := by
  have he : i + 1 + (bound - (i + 1)) = bound := by omega
  have hstop2 : ¬ f (i + 1 + (bound - (i + 1))) < vp := by rw [he]; exact hstop
  obtain ⟨b1, b2, b3, b4⟩ := scanUpA_spec f vp (bound - (i + 1)) (i + 1) hstop2
  rw [he] at b2
  exact ⟨by unfold scanUp; omega, b2, b3, fun m h1 h2 => b4 m (by omega) h2⟩

theorem scanDown_spec (f : ℕ → ℚ) (vp : ℚ) (j bound : ℕ) (hjb : bound < j)
    (hstop : ¬ vp < f bound) :
    bound ≤ scanDown f vp j bound ∧ scanDown f vp j bound ≤ j - 1 ∧
    ¬ vp < f (scanDown f vp j bound) ∧
    ∀ m, scanDown f vp j bound < m → m ≤ j - 1 → vp < f m := by
  have hk : j - 1 - bound ≤ j - 1 := by omega
  have he : j - 1 - (j - 1 - bound) = bound := by omega
  have hstop2 : ¬ vp < f (j - 1 - (j - 1 - bound)) := by rw [he]; exact hstop
  obtain ⟨b1, b2, b3, b4⟩ := scanDownA_spec f vp (j - 1 - bound) (j - 1) hk hstop2
  rw [he] at b1
  exact ⟨by unfold scanDown; omega, b2, b3, b4⟩

/- ---------- the partition loop ---------- -/

theorem partLoop_spec (key : ℕ → ℚ) (vp : ℚ) (lo hiM1 : ℕ) :
    ∀ (fuel : ℕ) (l : List ℕ) (i j : ℕ),
    j - i ≤ fuel →
    lo ≤ i → i < j → j ≤ hiM1 → hiM1 < l.length →
    (∀ k, lo ≤ k → k ≤ i → key (getI l k) ≤ vp) →
    (∀ k, j ≤ k → k ≤ hiM1 → vp ≤ key (getI l k)) →
    (partLoop key vp lo hiM1 fuel l i j).1.length = l.length ∧
    (partLoop key vp lo hiM1 fuel l i j).1.Perm l ∧
    (∀ k, k ≤ i ∨ j ≤ k → getI (partLoop key vp lo hiM1 fuel l i j).1 k = getI l k) ∧
    i < (partLoop key vp lo hiM1 fuel l i j).2 ∧
    (partLoop key vp lo hiM1 fuel l i j).2 ≤ hiM1 ∧
    (∀ k, lo ≤ k → k < (partLoop key vp lo hiM1 fuel l i j).2 →
      key (getI (partLoop key vp lo hiM1 fuel l i j).1 k) ≤ vp) ∧
    (∀ k, (partLoop key vp lo hiM1 fuel l i j).2 ≤ k → k ≤ hiM1 →
      vp ≤ key (getI (partLoop key vp lo hiM1 fuel l i j).1 k)) := by
  intro fuel
  induction fuel with
  | zero =>
    intro l i j hfuel hloi hij hjhi hlen hA hB
    omega
  | succ n ih =>
    intro l i j hfuel hloi hij hjhi hlen hA hB
    have hstopUp : ¬ (fun k => key (getI l k)) hiM1 < vp := by
      simp only [not_lt]
      exact hB hiM1 hjhi (Nat.le_refl hiM1)
    have hstopDown : ¬ vp < (fun k => key (getI l k)) lo := by
      simp only [not_lt]
      exact hA lo (Nat.le_refl lo) hloi
    have hib : i < hiM1 := by omega
    have hjb : lo < j := by omega
    obtain ⟨u1, u2, u3, u4⟩ :=
      scanUp_spec (fun k => key (getI l k)) vp i hiM1 hib hstopUp
    obtain ⟨d1, d2, d3, d4⟩ :=
      scanDown_spec (fun k => key (getI l k)) vp j lo hjb hstopDown
    set i2 := scanUp (fun k => key (getI l k)) vp i hiM1 with hi2def
    set j2 := scanDown (fun k => key (getI l k)) vp j lo with hj2def
    by_cases hcross : i2 < j2
    · -- swap and recurse
      have hunfold : partLoop key vp lo hiM1 (n + 1) l i j =
          partLoop key vp lo hiM1 n (swapL l i2 j2) i2 j2 := by
        conv_lhs => rw [partLoop]
        rw [← hi2def, ← hj2def, if_pos hcross]
      have hi2len : i2 < l.length := by omega
      have hj2len : j2 < l.length := by omega
      have hlen2 : hiM1 < (swapL l i2 j2).length := by rw [length_swapL]; exact hlen
      have hA2 : ∀ k, lo ≤ k → k ≤ i2 → key (getI (swapL l i2 j2) k) ≤ vp := by
        intro k hk1 hk2
        rcases Nat.eq_or_lt_of_le hk2 with rfl | hk3
        · rw [getI_swapL_left l i2 j2 hi2len hj2len]
          exact le_of_not_lt d3
        · rw [getI_swapL_other l i2 j2 k (by omega) (by omega)]
          rcases le_or_lt k i with hki | hki
          · exact hA k hk1 hki
          · exact le_of_lt (u4 k hki hk3)
      have hB2 : ∀ k, j2 ≤ k → k ≤ hiM1 → vp ≤ key (getI (swapL l i2 j2) k) := by
        intro k hk1 hk2
        rcases Nat.eq_or_lt_of_le hk1 with heq | hk3
        · rw [← heq, getI_swapL_right l i2 j2 hj2len]
          exact le_of_not_lt u3
        · rw [getI_swapL_other l i2 j2 k (by omega) (by omega)]
          rcases le_or_lt j k with hkj | hkj
          · exact hB k hkj hk2
          · exact le_of_lt (d4 k hk3 (by omega))
      obtain ⟨c1, c2, c3, c4, c5, c6, c7⟩ :=
        ih (swapL l i2 j2) i2 j2 (by omega) (by omega) hcross (by omega) hlen2 hA2 hB2
      rw [hunfold]
      refine ⟨c1.trans (length_swapL l i2 j2), c2.trans (swapL_perm l i2 j2 hi2len hj2len),
        ?_, by omega, c5, c6, c7⟩
      intro k hk
      have hk2 : k ≤ i2 ∨ j2 ≤ k := by omega
      rw [c3 k hk2, getI_swapL_other l i2 j2 k (by omega) (by omega)]
    · -- pointers crossed: stop
      have hunfold : partLoop key vp lo hiM1 (n + 1) l i j = (l, i2) := by
        conv_lhs => rw [partLoop]
        rw [← hi2def, ← hj2def, if_neg hcross]
      rw [hunfold]
      refine ⟨rfl, List.Perm.refl l, fun k _ => rfl, u1, u2, ?_, ?_⟩
      · intro k hk1 hk2
        rcases le_or_lt k i with hki | hki
        · exact hA k hk1 hki
        · exact le_of_lt (u4 k hki hk2)
      · intro k hk1 hk2
        rcases Nat.eq_or_lt_of_le hk1 with rfl | hk3
        · exact le_of_not_lt u3
        · rcases le_or_lt j k with hkj | hkj
          · exact hB k hkj hk2
          · exact le_of_lt (d4 k (by omega) (by omega))

/- ---------- median-of-3 pivot setup ---------- -/

theorem condSwap_spec (key : ℕ → ℚ) (l : List ℕ) (a b : ℕ)
    (ha : a < l.length) (hb : b < l.length) (hab : a ≠ b) :
    key (getI (if key (getI l b) < key (getI l a) then swapL l b a else l) a) ≤
      key (getI (if key (getI l b) < key (getI l a) then swapL l b a else l) b) ∧
    (∀ k, k ≠ a → k ≠ b →
      getI (if key (getI l b) < key (getI l a) then swapL l b a else l) k = getI l k) ∧
    ((getI (if key (getI l b) < key (getI l a) then swapL l b a else l) a = getI l a ∧
      getI (if key (getI l b) < key (getI l a) then swapL l b a else l) b = getI l b) ∨
     (getI (if key (getI l b) < key (getI l a) then swapL l b a else l) a = getI l b ∧
      getI (if key (getI l b) < key (getI l a) then swapL l b a else l) b = getI l a)) ∧
    (if key (getI l b) < key (getI l a) then swapL l b a else l).length = l.length ∧
    (if key (getI l b) < key (getI l a) then swapL l b a else l).Perm l := by
  by_cases h : key (getI l b) < key (getI l a)
  · rw [if_pos h]
    have e1 : getI (swapL l b a) a = getI l b := getI_swapL_right l b a ha
    have e2 : getI (swapL l b a) b = getI l a := getI_swapL_left l b a hb ha
    refine ⟨?_, ?_, Or.inr ⟨e1, e2⟩, length_swapL l b a, swapL_perm l b a hb ha⟩
    · rw [e1, e2]; exact le_of_lt h
    · intro k hka hkb
      exact getI_swapL_other l b a k hkb hka
  · rw [if_neg h]
    exact ⟨le_of_not_lt h, fun k _ _ => rfl, Or.inl ⟨rfl, rfl⟩, rfl, List.Perm.refl l⟩

theorem med3_spec (key : ℕ → ℚ) (l : List ℕ) (lo pm hi : ℕ)
    (h1 : lo < pm) (h2 : pm < hi) (hhi : hi < l.length) :
    key (getI (med3 key l lo pm hi) lo) ≤ key (getI (med3 key l lo pm hi) pm) ∧
    key (getI (med3 key l lo pm hi) pm) ≤ key (getI (med3 key l lo pm hi) hi) ∧
    (∀ k, k ≠ lo → k ≠ pm → k ≠ hi → getI (med3 key l lo pm hi) k = getI l k) ∧
    (med3 key l lo pm hi).length = l.length ∧
    (med3 key l lo pm hi).Perm l := by
  have hlo : lo < l.length := by omega
  have hpm : pm < l.length := by omega
  obtain ⟨s1le, s1other, s1disj, s1len, s1perm⟩ :=
    condSwap_spec key l lo pm hlo hpm (by omega)
  set l1 := if key (getI l pm) < key (getI l lo) then swapL l pm lo else l with hl1
  obtain ⟨s2le, s2other, s2disj, s2len, s2perm⟩ :=
    condSwap_spec key l1 pm hi (by omega) (by omega) (by omega)
  set l2 := if key (getI l1 hi) < key (getI l1 pm) then swapL l1 hi pm else l1 with hl2
  obtain ⟨s3le, s3other, s3disj, s3len, s3perm⟩ :=
    condSwap_spec key l2 lo pm (by omega) (by omega) (by omega)
  set l3 := if key (getI l2 pm) < key (getI l2 lo) then swapL l2 pm lo else l2 with hl3
  have hmed : med3 key l lo pm hi = l3 := by
    rw [med3, ← hl1, ← hl2, ← hl3]
  have hlo2 : getI l2 lo = getI l1 lo := s2other lo (by omega) (by omega)
  have hhi3 : getI l3 hi = getI l2 hi := s3other hi (by omega) (by omega)
  have hA : key (getI l2 lo) ≤ key (getI l2 hi) := by
    rcases s2disj with ⟨e1, e2⟩ | ⟨e1, e2⟩
    · rw [hlo2, e2]
      calc key (getI l1 lo) ≤ key (getI l1 pm) := s1le
        _ ≤ key (getI l1 hi) := by rw [← e1, ← e2]; exact s2le
    · rw [hlo2, e2]
      exact s1le
  refine ⟨?_, ?_, ?_, ?_, ?_⟩
  · rw [hmed]; exact s3le
  · rw [hmed]
    rcases s3disj with ⟨e1, e2⟩ | ⟨e1, e2⟩
    · rw [e2, hhi3]
      exact s2le
    · rw [e2, hhi3]
      exact hA
  · rw [hmed]
    intro k hk1 hk2 hk3
    rw [s3other k hk1 hk2, s2other k hk2 hk3, s1other k hk1 hk2]
  · rw [hmed, s3len, s2len, s1len]
  · rw [hmed]
    exact (s3perm.trans s2perm).trans s1perm

theorem partitionSeg_spec (key : ℕ → ℚ) (l : List ℕ) (lo hi : ℕ)
    (hspan : lo + 16 ≤ hi) (hhi : hi < l.length) :
    SegPerm lo hi l (partitionSeg key l lo hi).1 ∧
    lo < (partitionSeg key l lo hi).2 ∧ (partitionSeg key l lo hi).2 < hi ∧
    (partitionSeg key l lo hi).1.length = l.length ∧
    (∀ k, lo ≤ k → k < (partitionSeg key l lo hi).2 →
      key (getI (partitionSeg key l lo hi).1 k) ≤
        key (getI (partitionSeg key l lo hi).1 (partitionSeg key l lo hi).2)) ∧
    (∀ k, (partitionSeg key l lo hi).2 < k → k ≤ hi →
      key (getI (partitionSeg key l lo hi).1 (partitionSeg key l lo hi).2) ≤
        key (getI (partitionSeg key l lo hi).1 k)) := by
  set pm := lo + (hi - lo) / 2 with hpmdef
  have hpm1 : lo < pm := by omega
  have hpm2 : pm < hi - 1 := by omega
  obtain ⟨m1, m2, m3, m4, m5⟩ := med3_spec key l lo pm hi hpm1 (by omega) hhi
  set l3 := med3 key l lo pm hi with hl3
  set vp := key (getI l3 pm) with hvp
  set hiM1 := hi - 1 with hhiM1
  set l4 := swapL l3 pm hiM1 with hl4
  have hlen3 : l3.length = l.length := m4
  have hlen4 : l4.length = l.length := by rw [hl4, length_swapL, hlen3]
  have hpmlen : pm < l3.length := by omega
  have hhiM1len : hiM1 < l3.length := by omega
  -- values after parking the pivot at hi-1
  have park_at : getI l4 hiM1 = getI l3 pm := getI_swapL_right l3 pm hiM1 hhiM1len
  have park_lo : getI l4 lo = getI l3 lo := getI_swapL_other l3 pm hiM1 lo (by omega) (by omega)
  have park_hi : getI l4 hi = getI l3 hi := getI_swapL_other l3 pm hiM1 hi (by omega) (by omega)
  have hA0 : ∀ k, lo ≤ k → k ≤ lo → key (getI l4 k) ≤ vp := by
    intro k hk1 hk2
    have : k = lo := by omega
    subst this
    rw [park_lo, hvp]
    -- key (getI l3 lo) ≤ key (getI l3 pm)
    exact m1
  have hB0 : ∀ k, hiM1 ≤ k → k ≤ hiM1 → vp ≤ key (getI l4 k) := by
    intro k hk1 hk2
    have : k = hiM1 := by omega
    subst this
    rw [park_at]
  obtain ⟨p1, p2, p3, p4, p5, p6, p7⟩ :=
    partLoop_spec key vp lo hiM1 (hiM1 - lo) l4 lo hiM1 (by omega) (le_refl lo)
      (by omega) (le_refl hiM1) (by omega) hA0 hB0
  set res := partLoop key vp lo hiM1 (hiM1 - lo) l4 lo hiM1 with hres
  set l5 := res.1 with hl5
  set p := res.2 with hp
  have hlen5 : l5.length = l.length := by rw [hl5, p1, hlen4]
  have hplen : p < l5.length := by omega
  have hhiM1len5 : hiM1 < l5.length := by omega
  -- the parked pivot is untouched by the loop
  have loop_at : getI l5 hiM1 = getI l3 pm := by
    rw [hl5, p3 hiM1 (Or.inr (le_refl hiM1)), park_at]
  have loop_hi : getI l5 hi = getI l3 hi := by
    rw [hl5, p3 hi (Or.inr (by omega)), park_hi]
  have hunfold : partitionSeg key l lo hi = (swapL l5 p hiM1, p) := by
    rw [partitionSeg]
  rw [hunfold]
  -- value of the pivot cell after the final swap
  have final_at : getI (swapL l5 p hiM1) p = getI l3 pm := by
    by_cases hup : p = hiM1
    · rw [hup, swapL_self]
      exact loop_at
    · rw [getI_swapL_left l5 p hiM1 hplen hhiM1len5, loop_at]
  have hkey_at : key (getI (swapL l5 p hiM1) p) = vp := by rw [final_at, hvp]
  refine ⟨?_, by omega, by omega, by rw [length_swapL, hlen5], ?_, ?_⟩
  · -- SegPerm lo hi l (swapL l5 p hiM1)
    have sp3 : SegPerm lo hi l l3 :=
      ⟨hlen3, fun k hk => m3 k (by omega) (by omega) (by omega), m5⟩
    have sp4 : SegPerm lo hi l3 l4 :=
      SegPerm.ofSwap (by omega) (by omega) (by omega) (by omega) hpmlen hhiM1len
    have sp5a : SegPerm lo hiM1 l4 l5 := ⟨p1, fun k hk => p3 k (by omega), p2⟩
    have sp5 : SegPerm lo hi l4 l5 := SegPerm.mono (le_refl lo) (by omega) sp5a
    have sp6 : SegPerm lo hi l5 (swapL l5 p hiM1) :=
      SegPerm.ofSwap (by omega) (by omega) (by omega) (by omega) hplen hhiM1len5
    exact ((sp3.comp sp4).comp sp5).comp sp6
  · -- left of the pivot
    intro k hk1 hk2
    rw [hkey_at]
    have huntouched : getI (swapL l5 p hiM1) k = getI l5 k :=
      getI_swapL_other l5 p hiM1 k (by omega) (by omega)
    rw [huntouched]
    exact p6 k hk1 hk2
  · -- right of the pivot
    intro k hk1 hk2
    rw [hkey_at]
    by_cases hkhi : k = hi
    · have huntouched : getI (swapL l5 p hiM1) k = getI l5 k := by
        rw [hkhi]
        exact getI_swapL_other l5 p hiM1 hi (by omega) (by omega)
      rw [huntouched, hkhi, loop_hi, hvp]
      exact m2
    · have hk3 : k ≤ hiM1 := by omega
      by_cases hkM1 : k = hiM1
      · subst hkM1
        by_cases hup : p = hiM1
        · omega
        · rw [getI_swapL_right l5 p hiM1 hhiM1len5]
          exact p7 p (le_refl p) (by omega)
      · have huntouched : getI (swapL l5 p hiM1) k = getI l5 k :=
          getI_swapL_other l5 p hiM1 k (by omega) (by omega)
        rw [huntouched]
        exact p7 k (by omega) (by omega)

/- ---------- the small-segment insertion sort ---------- -/

theorem insertAsc_perm (key : ℕ → ℚ) (x : ℕ) :
    ∀ l : List ℕ, (insertAsc key x l).Perm (x :: l) := by
  intro l
  induction l with
  | nil => exact List.Perm.refl [x]
  | cons y ys ih =>
    unfold insertAsc
    by_cases h : key x < key y
    · rw [if_pos h]
    · rw [if_neg h]
      exact (List.Perm.cons y ih).trans (List.Perm.swap x y ys)

theorem insertAsc_pairwise (key : ℕ → ℚ) (x : ℕ) :
    ∀ l : List ℕ, List.Pairwise (fun a b => key a ≤ key b) l →
    List.Pairwise (fun a b => key a ≤ key b) (insertAsc key x l) := by
  intro l
  induction l with
  | nil => intro _; simp [insertAsc]
  | cons y ys ih =>
    intro h
    rcases List.pairwise_cons.mp h with ⟨hy, hys⟩
    unfold insertAsc
    by_cases hxy : key x < key y
    · rw [if_pos hxy]
      refine List.pairwise_cons.mpr ⟨?_, h⟩
      intro b hb
      rcases List.mem_cons.mp hb with rfl | hb2
      · exact le_of_lt hxy
      · exact le_trans (le_of_lt hxy) (hy b hb2)
    · rw [if_neg hxy]
      refine List.pairwise_cons.mpr ⟨?_, ih hys⟩
      intro b hb
      have hb2 : b ∈ x :: ys := (insertAsc_perm key x ys).mem_iff.mp hb
      rcases List.mem_cons.mp hb2 with rfl | hb3
      · exact le_of_not_lt hxy
      · exact hy b hb3

theorem foldlIns_perm (key : ℕ → ℚ) :
    ∀ (l acc : List ℕ),
      (l.foldl (fun a x => insertAsc key x a) acc).Perm (acc ++ l) := by
  intro l
  induction l with
  | nil => intro acc; simp
  | cons x xs ih =>
    intro acc
    simp only [List.foldl_cons]
    refine (ih (insertAsc key x acc)).trans ?_
    have h1 : (insertAsc key x acc ++ xs).Perm ((x :: acc) ++ xs) :=
      List.Perm.append_right xs (insertAsc_perm key x acc)
    refine h1.trans ?_
    simpa using List.perm_middle.symm

theorem foldlIns_pairwise (key : ℕ → ℚ) :
    ∀ (l acc : List ℕ), List.Pairwise (fun a b => key a ≤ key b) acc →
      List.Pairwise (fun a b => key a ≤ key b)
        (l.foldl (fun a x => insertAsc key x a) acc) := by
  intro l
  induction l with
  | nil => intro acc h; simpa using h
  | cons x xs ih =>
    intro acc h
    simp only [List.foldl_cons]
    exact ih (insertAsc key x acc) (insertAsc_pairwise key x acc h)

theorem insSortList_perm (key : ℕ → ℚ) (l : List ℕ) : (insSortList key l).Perm l := by
  simpa using foldlIns_perm key l []

theorem insSortList_pairwise (key : ℕ → ℚ) (l : List ℕ) :
    List.Pairwise (fun a b => key a ≤ key b) (insSortList key l) :=
  foldlIns_pairwise key l [] (List.Pairwise.nil)

theorem insSortList_length (key : ℕ → ℚ) (l : List ℕ) :
    (insSortList key l).length = l.length :=
  (insSortList_perm key l).length_eq

theorem insSortSeg_length (key : ℕ → ℚ) (l : List ℕ) (lo hi : ℕ)
    (hlo : lo ≤ hi) (hhi : hi < l.length) :
    (insSortSeg key l lo hi).length = l.length := by
  simp only [insSortSeg, List.length_append, List.length_take, List.length_drop,
    insSortList_length, length_segOf hhi]
  omega

theorem getI_insSortSeg_lt (key : ℕ → ℚ) (l : List ℕ) (lo hi k : ℕ)
    (hk : k < lo) (hlo : lo ≤ hi) (hhi : hi < l.length) :
    getI (insSortSeg key l lo hi) k = getI l k := by
  have hk2 : k < l.length := by omega
  have htakelen : (l.take lo).length = lo := by
    rw [List.length_take]; omega
  have hktake : k < (l.take lo).length := by omega
  have hlen : k < (insSortSeg key l lo hi).length := by
    rw [insSortSeg_length key l lo hi hlo hhi]; omega
  rw [getI_eq_getElem _ _ hlen, getI_eq_getElem _ _ hk2]
  simp only [insSortSeg]
  rw [List.getElem_append_left (by rw [List.length_append]; omega),
    List.getElem_append_left hktake, List.getElem_take]

theorem getI_insSortSeg_gt (key : ℕ → ℚ) (l : List ℕ) (lo hi k : ℕ)
    (hlo : lo ≤ hi) (hk : hi < k) (hhi : hi < l.length) :
    getI (insSortSeg key l lo hi) k = getI l k := by
  by_cases hk2 : k < l.length
  · have hlen : (insSortSeg key l lo hi).length = l.length :=
      insSortSeg_length key l lo hi hlo hhi
    have hk3 : k < (insSortSeg key l lo hi).length := by omega
    have htakelen : (l.take lo).length = lo := by rw [List.length_take]; omega
    have hmidlen : (insSortList key (segOf l lo hi)).length = hi + 1 - lo := by
      rw [insSortList_length, length_segOf hhi]
    have hablen : (l.take lo ++ insSortList key (segOf l lo hi)).length = hi + 1 := by
      rw [List.length_append, htakelen, hmidlen]; omega
    rw [getI_eq_getElem _ _ hk3, getI_eq_getElem _ _ hk2]
    simp only [insSortSeg]
    rw [List.getElem_append_right (by rw [hablen]; omega)]
    rw [List.getElem_drop]
    congr 1
    rw [hablen]
    omega
  · rw [getI_of_le _ _ (Nat.le_of_not_lt hk2), getI_of_le]
    rw [insSortSeg_length key l lo hi hlo hhi]
    omega

theorem getI_insSortSeg_mid (key : ℕ → ℚ) (l : List ℕ) (lo hi k : ℕ)
    (hk1 : lo ≤ k) (hk2 : k ≤ hi) (hhi : hi < l.length) :
    getI (insSortSeg key l lo hi) k =
      (insSortList key (segOf l lo hi)).getD (k - lo) 0 := by
  have hmidlen : (insSortList key (segOf l lo hi)).length = hi + 1 - lo := by
    rw [insSortList_length, length_segOf hhi]
  have htakelen : (l.take lo).length = lo := by rw [List.length_take]; omega
  have hk3 : k < (insSortSeg key l lo hi).length := by
    rw [insSortSeg_length key l lo hi (by omega) hhi]; omega
  have hkmid : k - lo < (insSortList key (segOf l lo hi)).length := by rw [hmidlen]; omega
  rw [getI_eq_getElem _ _ hk3, List.getD_eq_getElem _ _ hkmid]
  simp only [insSortSeg]
  rw [List.getElem_append_left (by rw [List.length_append, htakelen, hmidlen]; omega)]
  rw [List.getElem_append_right (by rw [htakelen]; omega)]
  congr 1
  rw [htakelen]

theorem insSortSeg_spec (key : ℕ → ℚ) (l : List ℕ) (lo hi : ℕ)
    (hlo : lo ≤ hi) (hhi : hi < l.length) :
    SegPerm lo hi l (insSortSeg key l lo hi) ∧
    (∀ a b, lo ≤ a → a ≤ b → b ≤ hi →
      key (getI (insSortSeg key l lo hi) a) ≤ key (getI (insSortSeg key l lo hi) b)) := by
  constructor
  · refine ⟨insSortSeg_length key l lo hi hlo hhi, ?_, ?_⟩
    · intro k hk
      rcases hk with hk | hk
      · exact getI_insSortSeg_lt key l lo hi k hk hlo hhi
      · exact getI_insSortSeg_gt key l lo hi k hlo hk hhi
    · -- permutation
      have hdec := segOf_decompose l lo hi (by omega) hhi
      conv_rhs => rw [hdec]
      simp only [insSortSeg]
      refine List.Perm.append ?_ (List.Perm.refl _)
      exact List.Perm.append (List.Perm.refl _) (insSortList_perm key (segOf l lo hi))
  · intro a b ha hab hb
    rcases Nat.eq_or_lt_of_le hab with rfl | hlt
    · exact le_refl _
    · rw [getI_insSortSeg_mid key l lo hi a ha (by omega) hhi,
        getI_insSortSeg_mid key l lo hi b (by omega) hb hhi]
      have hpw := insSortList_pairwise key (segOf l lo hi)
      rw [List.pairwise_iff_getElem] at hpw
      have hmidlen : (insSortList key (segOf l lo hi)).length = hi + 1 - lo := by
        rw [insSortList_length, length_segOf hhi]
      have hia : a - lo < (insSortList key (segOf l lo hi)).length := by rw [hmidlen]; omega
      have hib : b - lo < (insSortList key (segOf l lo hi)).length := by rw [hmidlen]; omega
      rw [List.getD_eq_getElem _ _ hia, List.getD_eq_getElem _ _ hib]
      exact hpw (a - lo) (b - lo) hia hib (by omega)

theorem segPerm_le_transfer {lo hi : ℕ} {l l2 : List ℕ} (key : ℕ → ℚ) (c : ℚ)
    (h : SegPerm lo hi l l2) (hlo : lo ≤ hi + 1) (hhi : hi < l.length)
    (hv : ∀ k, lo ≤ k → k ≤ hi → key (getI l k) ≤ c) :
    ∀ k, lo ≤ k → k ≤ hi → key (getI l2 k) ≤ c := by
  intro k hk1 hk2
  obtain ⟨m, hm1, hm2, hm3⟩ := segPerm_value_source h hlo hhi hk1 hk2
  rw [← hm3]
  exact hv m hm1 hm2

theorem segPerm_ge_transfer {lo hi : ℕ} {l l2 : List ℕ} (key : ℕ → ℚ) (c : ℚ)
    (h : SegPerm lo hi l l2) (hlo : lo ≤ hi + 1) (hhi : hi < l.length)
    (hv : ∀ k, lo ≤ k → k ≤ hi → c ≤ key (getI l k)) :
    ∀ k, lo ≤ k → k ≤ hi → c ≤ key (getI l2 k) := by
  intro k hk1 hk2
  obtain ⟨m, hm1, hm2, hm3⟩ := segPerm_value_source h hlo hhi hk1 hk2
  rw [← hm3]
  exact hv m hm1 hm2

theorem sorted_of_zones (key : ℕ → ℚ) (L : List ℕ) (lo p hi : ℕ)
    (hlop : lo < p) (hphi : p < hi)
    (hleft : ∀ a b, lo ≤ a → a ≤ b → b ≤ p - 1 → key (getI L a) ≤ key (getI L b))
    (hright : ∀ a b, p + 1 ≤ a → a ≤ b → b ≤ hi → key (getI L a) ≤ key (getI L b))
    (hlb : ∀ k, lo ≤ k → k ≤ p - 1 → key (getI L k) ≤ key (getI L p))
    (hrb : ∀ k, p + 1 ≤ k → k ≤ hi → key (getI L p) ≤ key (getI L k)) :
    ∀ a b, lo ≤ a → a ≤ b → b ≤ hi → key (getI L a) ≤ key (getI L b) := by
  intro a b ha hab hb
  by_cases hbp : b ≤ p - 1
  · exact hleft a b ha hab hbp
  · by_cases hap : p + 1 ≤ a
    · exact hright a b hap hab hb
    · have hap2 : a ≤ p := by omega
      have hbp2 : p ≤ b := by omega
      have h1 : key (getI L a) ≤ key (getI L p) := by
        rcases Nat.eq_or_lt_of_le hap2 with heq | haplt
        · rw [heq]
        · exact hlb a ha (by omega)
      have h2 : key (getI L p) ≤ key (getI L b) := by
        rcases Nat.eq_or_lt_of_le hbp2 with heq | hbplt
        · rw [heq]
        · exact hrb b (by omega) hb
      exact le_trans h1 h2

theorem qsortGo_spec (key : ℕ → ℚ) :
    ∀ (fuel : ℕ) (l : List ℕ) (lo hi : ℕ) (depth : ℤ),
    lo ≤ hi → hi < l.length → hi + 1 - lo ≤ fuel →
    SegPerm lo hi l (qsortGo key fuel l lo hi depth).1 ∧
    (∀ a b, lo ≤ a → a ≤ b → b ≤ hi →
      key (getI (qsortGo key fuel l lo hi depth).1 a) ≤
        key (getI (qsortGo key fuel l lo hi depth).1 b)) := by
  intro fuel
  induction fuel with
  | zero =>
    intro l lo hi depth h1 h2 h3
    omega
  | succ n ih =>
    intro l lo hi depth hlohi hhilen hfuel
    by_cases hsmall : hi - lo ≤ npySmallQuicksort
    · have hunfold : qsortGo key (n + 1) l lo hi depth = (insSortSeg key l lo hi, depth) := by
        rw [qsortGo, if_pos hsmall]
      rw [hunfold]
      exact insSortSeg_spec key l lo hi hlohi hhilen
    · by_cases hdepth : depth < 0
      · have hunfold : qsortGo key (n + 1) l lo hi depth =
            (insSortSeg key l lo hi, depth - 1) := by
          rw [qsortGo, if_neg hsmall, if_pos hdepth]
        rw [hunfold]
        exact insSortSeg_spec key l lo hi hlohi hhilen
      · have hspan : lo + 16 ≤ hi := by
          simp only [npySmallQuicksort] at hsmall
          omega
        obtain ⟨psp, hplo, hphi, plen, pleft, pright⟩ :=
          partitionSeg_spec key l lo hi hspan hhilen
        simp only [qsortGo, if_neg hsmall, if_neg hdepth]
        by_cases hside :
            (partitionSeg key l lo hi).2 - lo < hi - (partitionSeg key l lo hi).2
        · simp only [if_pos hside]
          set l1 := (partitionSeg key l lo hi).1 with hl1
          set p := (partitionSeg key l lo hi).2 with hp
          have hlen1 : l1.length = l.length := plen
          obtain ⟨spL, sortL⟩ := ih l1 lo (p - 1) (depth - 1) (by omega) (by omega) (by omega)
          set M := (qsortGo key n l1 lo (p - 1) (depth - 1)).1 with hM
          have hlenM : M.length = l.length := by rw [hM, spL.len, hlen1]
          obtain ⟨spR, sortR⟩ :=
            ih M (p + 1) hi (qsortGo key n l1 lo (p - 1) (depth - 1)).2
              (by omega) (by omega) (by omega)
          set L := (qsortGo key n M (p + 1) hi
            (qsortGo key n l1 lo (p - 1) (depth - 1)).2).1 with hL
          have hLM : ∀ k, k ≤ p → getI L k = getI M k := fun k hk =>
            spR.outside k (Or.inl (by omega))
          have hMl1 : ∀ k, p ≤ k → getI M k = getI l1 k := fun k hk =>
            spL.outside k (Or.inr (by omega))
          have hvpL : key (getI L p) = key (getI l1 p) := by
            rw [hLM p (le_refl p), hMl1 p (le_refl p)]
          constructor
          · exact (psp.comp (spL.mono (le_refl lo) (by omega))).comp
              (spR.mono (by omega) (le_refl hi))
          · have hleftM : ∀ k, lo ≤ k → k ≤ p - 1 → key (getI M k) ≤ key (getI l1 p) :=
              segPerm_le_transfer key (key (getI l1 p)) spL (by omega) (by omega)
                (fun k hk1 hk2 => pleft k hk1 (by omega))
            have hleftL : ∀ k, lo ≤ k → k ≤ p - 1 → key (getI L k) ≤ key (getI L p) := by
              intro k hk1 hk2
              rw [hLM k (by omega), hvpL]
              exact hleftM k hk1 hk2
            have hrightM : ∀ k, p + 1 ≤ k → k ≤ hi → key (getI l1 p) ≤ key (getI M k) := by
              intro k hk1 hk2
              rw [hMl1 k (by omega)]
              exact pright k (by omega) hk2
            have hrightL : ∀ k, p + 1 ≤ k → k ≤ hi → key (getI L p) ≤ key (getI L k) := by
              rw [hvpL]
              exact segPerm_ge_transfer key (key (getI l1 p)) spR (by omega) (by omega) hrightM
            have hsortLeftL : ∀ a b, lo ≤ a → a ≤ b → b ≤ p - 1 →
                key (getI L a) ≤ key (getI L b) := by
              intro a b ha hab hb
              rw [hLM a (by omega), hLM b (by omega)]
              exact sortL a b ha hab hb
            exact sorted_of_zones key L lo p hi hplo hphi hsortLeftL sortR hleftL hrightL
        · simp only [if_neg hside]
          set l1 := (partitionSeg key l lo hi).1 with hl1
          set p := (partitionSeg key l lo hi).2 with hp
          have hlen1 : l1.length = l.length := plen
          obtain ⟨spR, sortR⟩ := ih l1 (p + 1) hi (depth - 1) (by omega) (by omega) (by omega)
          set M := (qsortGo key n l1 (p + 1) hi (depth - 1)).1 with hM
          have hlenM : M.length = l.length := by rw [hM, spR.len, hlen1]
          obtain ⟨spL, sortL⟩ :=
            ih M lo (p - 1) (qsortGo key n l1 (p + 1) hi (depth - 1)).2
              (by omega) (by omega) (by omega)
          set L := (qsortGo key n M lo (p - 1)
            (qsortGo key n l1 (p + 1) hi (depth - 1)).2).1 with hL
          have hLM : ∀ k, p ≤ k → getI L k = getI M k := fun k hk =>
            spL.outside k (Or.inr (by omega))
          have hMl1 : ∀ k, k ≤ p → getI M k = getI l1 k := fun k hk =>
            spR.outside k (Or.inl (by omega))
          have hvpL : key (getI L p) = key (getI l1 p) := by
            rw [hLM p (le_refl p), hMl1 p (le_refl p)]
          constructor
          · exact (psp.comp (spR.mono (by omega) (le_refl hi))).comp
              (spL.mono (le_refl lo) (by omega))
          · have hleftM : ∀ k, lo ≤ k → k ≤ p - 1 → key (getI M k) ≤ key (getI l1 p) := by
              intro k hk1 hk2
              rw [hMl1 k (by omega)]
              exact pleft k hk1 (by omega)
            have hleftL : ∀ k, lo ≤ k → k ≤ p - 1 → key (getI L k) ≤ key (getI L p) := by
              rw [hvpL]
              exact segPerm_le_transfer key (key (getI l1 p)) spL (by omega) (by omega) hleftM
            have hrightM : ∀ k, p + 1 ≤ k → k ≤ hi → key (getI l1 p) ≤ key (getI M k) :=
              segPerm_ge_transfer key (key (getI l1 p)) spR (by omega) (by omega)
                (fun k hk1 hk2 => pright k (by omega) hk2)
            have hrightL : ∀ k, p + 1 ≤ k → k ≤ hi → key (getI L p) ≤ key (getI L k) := by
              intro k hk1 hk2
              rw [hLM k (by omega), hvpL]
              exact hrightM k hk1 hk2
            have hsortRightL : ∀ a b, p + 1 ≤ a → a ≤ b → b ≤ hi →
                key (getI L a) ≤ key (getI L b) := by
              intro a b ha hab hb
              rw [hLM a (by omega), hLM b (by omega)]
              exact sortR a b ha hab hb
            exact sorted_of_zones key L lo p hi hplo hphi sortL hsortRightL hleftL hrightL

/- ---------- argsort and the descending indexer ---------- -/

theorem npArgsort_perm (v : List ℚ) : (npArgsort v).Perm (List.range v.length) := by
  rcases Nat.eq_zero_or_pos v.length with hn | hn
  · have hemp : npArgsort v = [] := by
      rw [npArgsort, hn]
      rfl
    rw [hemp, hn]
    exact List.Perm.nil
  · have hlen : v.length - 1 < (List.range v.length).length := by
      rw [List.length_range]; omega
    obtain ⟨hsp, _⟩ := qsortGo_spec (fun i => v.getD i 0) v.length (List.range v.length)
      0 (v.length - 1) (2 * (Nat.log2 v.length : ℤ)) (by omega) hlen (by omega)
    exact hsp.perm

theorem npArgsort_length (v : List ℚ) : (npArgsort v).length = v.length := by
  rw [(npArgsort_perm v).length_eq, List.length_range]

theorem npArgsort_mem_lt (v : List ℚ) (x : ℕ) (hx : x ∈ npArgsort v) : x < v.length := by
  have := (npArgsort_perm v).mem_iff.mp hx
  simpa using this

theorem npArgsort_sorted (v : List ℚ) (a b : ℕ) (hab : a ≤ b) (hb : b < v.length) :
    v.getD (getI (npArgsort v) a) 0 ≤ v.getD (getI (npArgsort v) b) 0 := by
  have hn : 0 < v.length := by omega
  have hlen : v.length - 1 < (List.range v.length).length := by
    rw [List.length_range]; omega
  obtain ⟨_, hsort⟩ := qsortGo_spec (fun i => v.getD i 0) v.length (List.range v.length)
    0 (v.length - 1) (2 * (Nat.log2 v.length : ℤ)) (by omega) hlen (by omega)
  exact hsort a b (Nat.zero_le a) hab (by omega)

theorem getI_nargsortDesc (scores : List ℚ) (k : ℕ) (hk : k < scores.length) :
    getI (nargsortDesc scores) k =
      scores.length - 1 - getI (npArgsort scores.reverse) (scores.length - 1 - k) := by
  have hlenrev : scores.reverse.length = scores.length := List.length_reverse scores
  have hplen : (npArgsort scores.reverse).length = scores.length := by
    rw [npArgsort_length, hlenrev]
  have hmaplen : ((npArgsort scores.reverse).map
      fun p => scores.length - 1 - p).length = scores.length := by
    rw [List.length_map, hplen]
  have hk2 : k < ((npArgsort scores.reverse).map
      fun p => scores.length - 1 - p).reverse.length := by
    rw [List.length_reverse, hmaplen]; exact hk
  have hk3 : scores.length - 1 - k < (npArgsort scores.reverse).length := by
    rw [hplen]; omega
  rw [nargsortDesc]
  rw [getI_eq_getElem _ _ (by simpa [nargsortDesc] using hk2)]
  rw [List.getElem_reverse]
  rw [List.getElem_map]
  rw [getI_eq_getElem _ _ hk3]
  congr 2
  rw [hmaplen]

theorem nargsortDesc_perm (scores : List ℚ) :
    (nargsortDesc scores).Perm (List.range scores.length) := by
  have hlenrev : scores.reverse.length = scores.length := List.length_reverse scores
  have hperm : (npArgsort scores.reverse).Perm (List.range scores.length) := by
    have := npArgsort_perm scores.reverse
    rwa [hlenrev] at this
  have hnodup : (npArgsort scores.reverse).Nodup :=
    hperm.nodup_iff.mpr (List.nodup_range scores.length)
  have hmem : ∀ x ∈ npArgsort scores.reverse, x < scores.length := by
    intro x hx
    have := hperm.mem_iff.mp hx
    simpa using this
  have hmapnodup : ((npArgsort scores.reverse).map
      fun p => scores.length - 1 - p).Nodup := by
    refine List.Nodup.map_on ?_ hnodup
    intro x hx y hy hxy
    have hx2 := hmem x hx
    have hy2 := hmem y hy
    omega
  have hsub : ((npArgsort scores.reverse).map fun p => scores.length - 1 - p) ⊆
      List.range scores.length := by
    intro x hx
    rw [List.mem_map] at hx
    obtain ⟨p, hp, rfl⟩ := hx
    have := hmem p hp
    rw [List.mem_range]
    omega
  have hsubperm := List.subperm_of_subset hmapnodup hsub
  have hlen : (List.range scores.length).length ≤
      ((npArgsort scores.reverse).map fun p => scores.length - 1 - p).length := by
    rw [List.length_range, List.length_map, npArgsort_length, hlenrev]
  have hperm2 := List.Subperm.perm_of_length_le hsubperm hlen
  rw [nargsortDesc]
  exact (List.reverse_perm _).trans hperm2

theorem nargsortDesc_length (scores : List ℚ) :
    (nargsortDesc scores).length = scores.length := by
  rw [(nargsortDesc_perm scores).length_eq, List.length_range]

theorem nargsortDesc_mem_lt (scores : List ℚ) (x : ℕ) (hx : x ∈ nargsortDesc scores) :
    x < scores.length := by
  have := (nargsortDesc_perm scores).mem_iff.mp hx
  simpa using this

theorem nargsortDesc_desc (scores : List ℚ) (a b : ℕ) (hab : a ≤ b)
    (hb : b < scores.length) :
    scores.getD (getI (nargsortDesc scores) b) 0 ≤
      scores.getD (getI (nargsortDesc scores) a) 0 := by
  have ha : a < scores.length := by omega
  have hlenrev : scores.reverse.length = scores.length := List.length_reverse scores
  have hbridge : ∀ k, k < scores.length →
      scores.getD (getI (nargsortDesc scores) k) 0 =
        scores.reverse.getD (getI (npArgsort scores.reverse) (scores.length - 1 - k)) 0 := by
    intro k hk
    rw [getI_nargsortDesc scores k hk]
    have hp : getI (npArgsort scores.reverse) (scores.length - 1 - k) < scores.length := by
      have hplen : (npArgsort scores.reverse).length = scores.length := by
        rw [npArgsort_length, hlenrev]
      by_cases hin : scores.length - 1 - k < (npArgsort scores.reverse).length
      · have hmemx : getI (npArgsort scores.reverse) (scores.length - 1 - k) ∈
            npArgsort scores.reverse := by
          rw [getI_eq_getElem _ _ hin]
          exact (npArgsort scores.reverse).getElem_mem hin
        have hlt := npArgsort_mem_lt scores.reverse _ hmemx
        omega
      · omega
    have h1 : scores.length - 1 - getI (npArgsort scores.reverse) (scores.length - 1 - k) <
        scores.length := by omega
    rw [List.getD_eq_getElem _ _ h1, List.getD_eq_getElem _ _ (by rw [hlenrev]; exact hp)]
    rw [List.getElem_reverse]
  rw [hbridge a ha, hbridge b hb]
  have := npArgsort_sorted scores.reverse (scores.length - 1 - b) (scores.length - 1 - a)
    (by omega) (by rw [hlenrev]; omega)
  exact this

/- ---------- reordering rows and attaching ranks ---------- -/

theorem reorder_eq_map (pre : List PreRow) :
    ∀ (idxs : List ℕ), (∀ i ∈ idxs, i < pre.length) →
    reorder pre idxs = idxs.map fun i => pre.getD i dummyPreRow := by
  intro idxs
  induction idxs with
  | nil => intro _; rfl
  | cons x xs ih =>
    intro h
    have hx : x < pre.length := h x (List.mem_cons_self x xs)
    have hrest : ∀ i ∈ xs, i < pre.length := fun i hi => h i (List.mem_cons_of_mem x hi)
    simp only [reorder, List.filterMap_cons, List.map_cons]
    rw [List.get?_eq_getElem?, List.getElem?_eq_getElem hx]
    simp only [Option.toList]
    rw [← reorder, ih hrest]
    rw [List.getD_eq_getElem _ _ hx]

theorem reorder_length (pre : List PreRow) (idxs : List ℕ)
    (h : ∀ i ∈ idxs, i < pre.length) : (reorder pre idxs).length = idxs.length := by
  rw [reorder_eq_map pre idxs h, List.length_map]

theorem reorder_getD (pre : List PreRow) (idxs : List ℕ)
    (h : ∀ i ∈ idxs, i < pre.length) (k : ℕ) (hk : k < idxs.length) :
    (reorder pre idxs).getD k dummyPreRow = pre.getD (idxs.getD k 0) dummyPreRow := by
  rw [reorder_eq_map pre idxs h]
  have hk2 : k < (idxs.map fun i => pre.getD i dummyPreRow).length := by
    rw [List.length_map]; exact hk
  rw [List.getD_eq_getElem _ _ hk2, List.getElem_map, List.getD_eq_getElem _ _ hk]

theorem filterMap_get_range (pre : List PreRow) :
    (List.range pre.length).filterMap (fun i => pre.get? i) = pre := by
  induction pre with
  | nil => rfl
  | cons x xs ih =>
    have hlen : (x :: xs).length = xs.length + 1 := rfl
    rw [hlen, List.range_succ_eq_map]
    rw [List.filterMap_cons]
    simp only [List.get?_eq_getElem?]
    have h0 : (x :: xs)[0]? = some x := by simp
    rw [h0]
    have hcomp : (List.map (fun i => i + 1) (List.range xs.length)).filterMap
        (fun i => (x :: xs)[i]?) = (List.range xs.length).filterMap (fun i => xs[i]?) := by
      rw [List.filterMap_map]
      congr 1
      funext i
      simp [Function.comp]
    simp only [Option.toList]
    rw [hcomp]
    have := ih
    simp only [List.get?_eq_getElem?] at this
    rw [this]

theorem reorder_perm_of_perm (pre : List PreRow) (idxs : List ℕ)
    (h : idxs.Perm (List.range pre.length)) : (reorder pre idxs).Perm pre := by
  have h1 : (reorder pre idxs).Perm (reorder pre (List.range pre.length)) :=
    List.Perm.filterMap _ h
  have h2 : reorder pre (List.range pre.length) = pre := filterMap_get_range pre
  rw [h2] at h1
  exact h1

theorem sortValuesDescRows_perm (pre : List PreRow) :
    (sortValuesDescRows pre).Perm pre := by
  rw [sortValuesDescRows]
  apply reorder_perm_of_perm
  have := nargsortDesc_perm (scoresOf pre)
  rwa [scoresOf, List.length_map] at this

theorem sortValuesDescRows_length (pre : List PreRow) :
    (sortValuesDescRows pre).length = pre.length :=
  (sortValuesDescRows_perm pre).length_eq

theorem scoresOf_getD (pre : List PreRow) (i : ℕ) (hi : i < pre.length) :
    (scoresOf pre).getD i 0 = (pre.getD i dummyPreRow).value_score := by
  have hi2 : i < (scoresOf pre).length := by rw [scoresOf, List.length_map]; exact hi
  rw [List.getD_eq_getElem _ _ hi2, List.getD_eq_getElem _ _ hi]
  simp [scoresOf]

theorem sortValuesDescRows_getD (pre : List PreRow) (k : ℕ) (hk : k < pre.length) :
    (sortValuesDescRows pre).getD k dummyPreRow =
      pre.getD (getI (nargsortDesc (scoresOf pre)) k) dummyPreRow := by
  have hslen : (scoresOf pre).length = pre.length := by rw [scoresOf, List.length_map]
  have hbound : ∀ i ∈ nargsortDesc (scoresOf pre), i < pre.length := by
    intro i hi
    have := nargsortDesc_mem_lt (scoresOf pre) i hi
    omega
  have hk2 : k < (nargsortDesc (scoresOf pre)).length := by
    rw [nargsortDesc_length, hslen]; exact hk
  rw [sortValuesDescRows, reorder_getD pre _ hbound k hk2]
  rfl

theorem sortValuesDescRows_desc (pre : List PreRow) (a b : ℕ) (hab : a ≤ b)
    (hb : b < pre.length) :
    ((sortValuesDescRows pre).getD b dummyPreRow).value_score ≤
      ((sortValuesDescRows pre).getD a dummyPreRow).value_score := by
  have ha : a < pre.length := by omega
  have hslen : (scoresOf pre).length = pre.length := by rw [scoresOf, List.length_map]
  rw [sortValuesDescRows_getD pre a ha, sortValuesDescRows_getD pre b hb]
  have hdesc := nargsortDesc_desc (scoresOf pre) a b hab (by omega)
  have hia : getI (nargsortDesc (scoresOf pre)) a < pre.length := by
    have hka : a < (nargsortDesc (scoresOf pre)).length := by
      rw [nargsortDesc_length, hslen]; omega
    have : getI (nargsortDesc (scoresOf pre)) a ∈ nargsortDesc (scoresOf pre) := by
      rw [getI_eq_getElem _ _ hka]
      exact (nargsortDesc (scoresOf pre)).getElem_mem hka
    have := nargsortDesc_mem_lt (scoresOf pre) _ this
    omega
  have hib : getI (nargsortDesc (scoresOf pre)) b < pre.length := by
    have hkb : b < (nargsortDesc (scoresOf pre)).length := by
      rw [nargsortDesc_length, hslen]; omega
    have : getI (nargsortDesc (scoresOf pre)) b ∈ nargsortDesc (scoresOf pre) := by
      rw [getI_eq_getElem _ _ hkb]
      exact (nargsortDesc (scoresOf pre)).getElem_mem hkb
    have := nargsortDesc_mem_lt (scoresOf pre) _ this
    omega
  rw [scoresOf_getD pre _ hia, scoresOf_getD pre _ hib] at hdesc
  exact hdesc

theorem attachRanks_length : ∀ (k : ℕ) (l : List PreRow),
    (attachRanks k l).length = l.length := by
  intro k l
  induction l generalizing k with
  | nil => rfl
  | cons p ps ih => simp [attachRanks, ih]

theorem attachRanks_map_rank : ∀ (k : ℕ) (l : List PreRow),
    (attachRanks k l).map (fun r => r.value_rank) = List.range' k l.length := by
  intro k l
  induction l generalizing k with
  | nil => rfl
  | cons p ps ih =>
    simp only [attachRanks, List.map_cons, ih, List.length_cons]
    rw [List.range'_succ]
    rfl

theorem attachRanks_mem : ∀ (k : ℕ) (l : List PreRow) (r : ScoredCar),
    r ∈ attachRanks k l →
    ∃ p ∈ l, ∃ j, r = withRank p j ∧ k ≤ j ∧ j < k + l.length := by
  intro k l
  induction l generalizing k with
  | nil => intro r h; simp [attachRanks] at h
  | cons p ps ih =>
    intro r h
    simp only [attachRanks, List.mem_cons] at h
    rcases h with rfl | h2
    · exact ⟨p, List.mem_cons_self p ps, k, rfl, le_refl k, by simp⟩
    · obtain ⟨q, hq, j, hj1, hj2, hj3⟩ := ih (k + 1) r h2
      exact ⟨q, List.mem_cons_of_mem p hq, j, hj1, by omega, by simp at hj3 ⊢; omega⟩

theorem attachRanks_getD : ∀ (k : ℕ) (l : List PreRow) (i : ℕ), i < l.length →
    (attachRanks k l).getD i dummyScored = withRank (l.getD i dummyPreRow) (k + i) := by
  intro k l
  induction l generalizing k with
  | nil => intro i hi; simp at hi
  | cons p ps ih =>
    intro i hi
    cases i with
    | zero => simp [attachRanks, List.getD]
    | succ m =>
      have hm : m < ps.length := by simpa using hi
      simp only [attachRanks]
      have h1 : (withRank p k :: attachRanks (k + 1) ps).getD (m + 1) dummyScored =
          (attachRanks (k + 1) ps).getD m dummyScored := by
        simp [List.getD]
      have h2 : (p :: ps).getD (m + 1) dummyPreRow = ps.getD m dummyPreRow := by
        simp [List.getD]
      rw [h1, h2, ih (k + 1) m hm]
      congr 1
      omega

theorem attachRanks_mem_of_mem : ∀ (k : ℕ) (l : List PreRow) (p : PreRow), p ∈ l →
    ∃ j, k ≤ j ∧ j < k + l.length ∧ withRank p j ∈ attachRanks k l := by
  intro k l
  induction l generalizing k with
  | nil => intro p h; simp at h
  | cons q qs ih =>
    intro p h
    rcases List.mem_cons.mp h with rfl | h2
    · exact ⟨k, le_refl k, by simp, List.mem_cons_self _ _⟩
    · obtain ⟨j, hj1, hj2, hj3⟩ := ih (k + 1) p h2
      exact ⟨j, by omega, by simp at hj2 ⊢; omega, List.mem_cons_of_mem _ hj3⟩

/- ---------- column normalization facts ---------- -/

theorem foldl_min_le_init : ∀ (l : List ℚ) (a : ℚ), l.foldl min a ≤ a := by
  intro l
  induction l with
  | nil => intro a; exact le_refl a
  | cons x xs ih =>
    intro a
    calc xs.foldl min (min a x) ≤ min a x := ih (min a x)
      _ ≤ a := min_le_left a x

theorem foldl_min_le_mem : ∀ (l : List ℚ) (a x : ℚ), x ∈ l → l.foldl min a ≤ x := by
  intro l
  induction l with
  | nil => intro a x h; simp at h
  | cons y ys ih =>
    intro a x h
    rcases List.mem_cons.mp h with rfl | h2
    · calc ys.foldl min (min a x) ≤ min a x := foldl_min_le_init ys (min a x)
        _ ≤ x := min_le_right a x
    · exact ih (min a y) x h2

theorem init_le_foldl_max : ∀ (l : List ℚ) (a : ℚ), a ≤ l.foldl max a := by
  intro l
  induction l with
  | nil => intro a; exact le_refl a
  | cons x xs ih =>
    intro a
    calc a ≤ max a x := le_max_left a x
      _ ≤ xs.foldl max (max a x) := ih (max a x)

theorem mem_le_foldl_max : ∀ (l : List ℚ) (a x : ℚ), x ∈ l → x ≤ l.foldl max a := by
  intro l
  induction l with
  | nil => intro a x h; simp at h
  | cons y ys ih =>
    intro a x h
    rcases List.mem_cons.mp h with rfl | h2
    · calc x ≤ max a x := le_max_right a x
        _ ≤ ys.foldl max (max a x) := init_le_foldl_max ys (max a x)
    · exact ih (max a y) x h2

theorem colMin_le_mem (xs : List (Option ℚ)) (x : ℚ) (hx : x ∈ xs.filterMap id) :
    colMin xs ≤ x := by
  rw [colMin]
  rcases hvals : xs.filterMap id with _ | ⟨v, vs⟩
  · rw [hvals] at hx; simp at hx
  · rw [hvals] at hx
    rcases List.mem_cons.mp hx with rfl | h2
    · exact foldl_min_le_init vs x
    · exact foldl_min_le_mem vs v x h2

theorem mem_le_colMax (xs : List (Option ℚ)) (x : ℚ) (hx : x ∈ xs.filterMap id) :
    x ≤ colMax xs := by
  rw [colMax]
  rcases hvals : xs.filterMap id with _ | ⟨v, vs⟩
  · rw [hvals] at hx; simp at hx
  · rw [hvals] at hx
    rcases List.mem_cons.mp hx with rfl | h2
    · exact init_le_foldl_max vs x
    · exact mem_le_foldl_max vs v x h2

theorem getD_map_of_lt {α β : Type} (f : α → β) (l : List α) (i : ℕ) (d : β) (d2 : α)
    (hi : i < l.length) : (l.map f).getD i d = f (l.getD i d2) := by
  have hi2 : i < (l.map f).length := by rw [List.length_map]; exact hi
  rw [List.getD_eq_getElem _ _ hi2, List.getD_eq_getElem _ _ hi, List.getElem_map]

theorem all_none_of_filterMap_nil (xs : List (Option ℚ))
    (h : (xs.filterMap id).isEmpty) (i : ℕ) (hi : i < xs.length) : xs.getD i none = none := by
  rw [List.isEmpty_iff] at h
  rw [List.filterMap_eq_nil] at h
  rw [List.getD_eq_getElem _ _ hi]
  exact h xs[i] (xs.getElem_mem hi)

theorem getD_mem_filterMap (xs : List (Option ℚ)) (i : ℕ) (q : ℚ) (hi : i < xs.length)
    (h : xs.getD i none = some q) : q ∈ xs.filterMap id := by
  rw [List.mem_filterMap]
  refine ⟨xs.getD i none, ?_, by rw [h]; rfl⟩
  rw [List.getD_eq_getElem _ _ hi]
  exact xs.getElem_mem hi

theorem norm_col_length (xs : List (Option ℚ)) (b : Bool) :
    (norm_col xs b).length = xs.length := by
  rw [norm_col]
  by_cases h1 : (xs.filterMap id).isEmpty
  · rw [if_pos h1, List.length_map]
  · rw [if_neg h1]
    by_cases h2 : colMax xs = colMin xs
    · rw [if_pos h2, List.length_map]
    · rw [if_neg h2]
      cases b
      · rw [if_neg (by simp), List.length_map]
      · rw [if_pos rfl, List.length_map]

theorem norm_col_getD_isSome (xs : List (Option ℚ)) (i : ℕ) (hi : i < xs.length) :
    ((norm_col xs false).getD i none).isSome = (xs.getD i none).isSome := by
  rw [norm_col]
  by_cases h1 : (xs.filterMap id).isEmpty
  · rw [if_pos h1, getD_map_of_lt _ xs i none none hi,
      all_none_of_filterMap_nil xs h1 i hi]
  · rw [if_neg h1]
    by_cases h2 : colMax xs = colMin xs
    · rw [if_pos h2, getD_map_of_lt _ xs i none none hi]
      cases xs.getD i none <;> rfl
    · rw [if_neg h2, if_neg (by simp), getD_map_of_lt _ xs i none none hi]
      cases xs.getD i none <;> rfl

theorem norm_col_getD_bounds (xs : List (Option ℚ)) (i : ℕ) (q : ℚ) (hi : i < xs.length)
    (h : (norm_col xs false).getD i none = some q) : 0 ≤ q ∧ q ≤ 1 := by
  rw [norm_col] at h
  by_cases h1 : (xs.filterMap id).isEmpty
  · rw [if_pos h1, getD_map_of_lt _ xs i none none hi] at h
    simp at h
  · rw [if_neg h1] at h
    by_cases h2 : colMax xs = colMin xs
    · rw [if_pos h2, getD_map_of_lt _ xs i none none hi] at h
      rcases hx : xs.getD i none with _ | x
      · rw [hx] at h
        exact absurd h (by simp)
      · rw [hx] at h
        simp only [Option.map_some'] at h
        have := Option.some.inj h
        rw [← this]
        norm_num
    · rw [if_neg h2, if_neg (by simp), getD_map_of_lt _ xs i none none hi] at h
      rcases hx : xs.getD i none with _ | x
      · rw [hx] at h
        exact absurd h (by simp)
      · rw [hx] at h
        simp only [Option.map_some'] at h
        have hq := Option.some.inj h
        have hxmem : x ∈ xs.filterMap id := getD_mem_filterMap xs i x hi hx
        have hle1 : colMin xs ≤ x := colMin_le_mem xs x hxmem
        have hle2 : x ≤ colMax xs := mem_le_colMax xs x hxmem
        have h3 : colMin xs < colMax xs :=
          lt_of_le_of_ne (le_trans hle1 hle2) (fun heq => h2 heq.symm)
        rw [← hq]
        constructor
        · apply div_nonneg <;> linarith
        · rw [div_le_one (by linarith)]
          linarith

/- ---------- row construction facts ---------- -/

theorem buildRows_length : ∀ (cs : List Car) (gs ps ds ms bs : List (Option ℚ)),
    gs.length = cs.length → ps.length = cs.length → ds.length = cs.length →
    ms.length = cs.length → bs.length = cs.length →
    (buildRows cs gs ps ds ms bs).length = cs.length := by
  intro cs
  induction cs with
  | nil => intro gs ps ds ms bs _ _ _ _ _; cases gs <;> rfl
  | cons c cs2 ih =>
    intro gs ps ds ms bs hg hp hd hm hb
    rcases gs with _ | ⟨g, gs2⟩
    · simp at hg
    rcases ps with _ | ⟨p, ps2⟩
    · simp at hp
    rcases ds with _ | ⟨d, ds2⟩
    · simp at hd
    rcases ms with _ | ⟨m, ms2⟩
    · simp at hm
    rcases bs with _ | ⟨b, bs2⟩
    · simp at hb
    simp only [buildRows, List.length_cons]
    rw [ih gs2 ps2 ds2 ms2 bs2 (by simpa using hg) (by simpa using hp) (by simpa using hd)
      (by simpa using hm) (by simpa using hb)]

theorem buildRows_getD : ∀ (cs : List Car) (gs ps ds ms bs : List (Option ℚ)) (i : ℕ),
    gs.length = cs.length → ps.length = cs.length → ds.length = cs.length →
    ms.length = cs.length → bs.length = cs.length → i < cs.length →
    (buildRows cs gs ps ds ms bs).getD i dummyPreRow =
      mkPreRow (cs.getD i dummyCar) (gs.getD i none) (ps.getD i none) (ds.getD i none)
        (ms.getD i none) (bs.getD i none) := by
  intro cs
  induction cs with
  | nil => intro gs ps ds ms bs i _ _ _ _ _ hi; simp at hi
  | cons c cs2 ih =>
    intro gs ps ds ms bs i hg hp hd hm hb hi
    rcases gs with _ | ⟨g, gs2⟩
    · simp at hg
    rcases ps with _ | ⟨p, ps2⟩
    · simp at hp
    rcases ds with _ | ⟨d, ds2⟩
    · simp at hd
    rcases ms with _ | ⟨m, ms2⟩
    · simp at hm
    rcases bs with _ | ⟨b, bs2⟩
    · simp at hb
    cases i with
    | zero => rfl
    | succ n =>
      have hn : n < cs2.length := by simpa using hi
      simp only [buildRows, List.getD]
      exact ih gs2 ps2 ds2 ms2 bs2 n (by simpa using hg) (by simpa using hp)
        (by simpa using hd) (by simpa using hm) (by simpa using hb) hn

theorem carAgeCol_length (df : List Car) : (carAgeCol df).length = df.length :=
  List.length_map df _

theorem priceCol_length (df : List Car) : (priceCol df).length = df.length :=
  List.length_map df _

theorem deprCol_length (df : List Car) : (deprCol df).length = df.length :=
  List.length_map df _

theorem mileageCol_length (df : List Car) : (mileageCol df).length = df.length :=
  List.length_map df _

theorem preRows_length (df : List Car) : (preRows df).length = df.length := by
  rw [preRows]
  exact buildRows_length df _ _ _ _ _ (carAgeCol_length df)
    (by rw [norm_col_length, priceCol_length])
    (by rw [norm_col_length, deprCol_length])
    (by rw [norm_col_length, mileageCol_length])
    (by rw [norm_col_length, carAgeCol_length])

theorem preRows_getD (df : List Car) (i : ℕ) (hi : i < df.length) :
    (preRows df).getD i dummyPreRow =
      mkPreRow (df.getD i dummyCar) ((carAgeCol df).getD i none)
        ((norm_col (priceCol df) false).getD i none)
        ((norm_col (deprCol df) false).getD i none)
        ((norm_col (mileageCol df) false).getD i none)
        ((norm_col (carAgeCol df) false).getD i none) := by
  rw [preRows]
  exact buildRows_getD df _ _ _ _ _ i (carAgeCol_length df)
    (by rw [norm_col_length, priceCol_length])
    (by rw [norm_col_length, deprCol_length])
    (by rw [norm_col_length, mileageCol_length])
    (by rw [norm_col_length, carAgeCol_length]) hi

theorem preRows_mem_struct (df : List Car) (p : PreRow) (hp : p ∈ preRows df) :
    ∃ i, i < df.length ∧ p = mkPreRow (df.getD i dummyCar) ((carAgeCol df).getD i none)
        ((norm_col (priceCol df) false).getD i none)
        ((norm_col (deprCol df) false).getD i none)
        ((norm_col (mileageCol df) false).getD i none)
        ((norm_col (carAgeCol df) false).getD i none) := by
  rw [List.mem_iff_getElem] at hp
  obtain ⟨i, hi, hval⟩ := hp
  have hi2 : i < df.length := by rw [← preRows_length df]; exact hi
  refine ⟨i, hi2, ?_⟩
  rw [← preRows_getD df i hi2, List.getD_eq_getElem _ _ hi, hval]

/- ---------- score bounds ---------- -/

theorem round_half_even_nonneg (x : ℚ) (h : 0 ≤ x) : 0 ≤ round_half_even x := by
  have h0 : (0 : ℤ) ≤ ⌊x⌋ := Int.floor_nonneg.mpr h
  rw [round_half_even]
  split_ifs <;> omega

theorem round_half_even_le (x : ℚ) (B : ℤ) (h : x ≤ B) : round_half_even x ≤ B := by
  have hf : ⌊x⌋ ≤ B := by
    have := Int.floor_le_floor h
    rwa [Int.floor_intCast] at this
  have hfx : (⌊x⌋ : ℚ) ≤ x := Int.floor_le x
  rw [round_half_even]
  split_ifs with h1 h2 h3
  · exact hf
  · have hlt : (⌊x⌋ : ℚ) < (B : ℚ) - 1 / 2 := by linarith
    have : (⌊x⌋ : ℚ) < (B : ℚ) := by linarith
    have : ⌊x⌋ < B := by exact_mod_cast this
    omega
  · exact hf
  · have heq : x - ⌊x⌋ = 1 / 2 := le_antisymm (le_of_not_lt h2) (le_of_not_lt h1)
    have hlt : (⌊x⌋ : ℚ) ≤ (B : ℚ) - 1 / 2 := by linarith
    have : (⌊x⌋ : ℚ) < (B : ℚ) := by linarith
    have : ⌊x⌋ < B := by exact_mod_cast this
    omega

theorem round1_bounds (q : ℚ) (h0 : 0 ≤ q) (h1 : q ≤ 100) :
    0 ≤ round1 q ∧ round1 q ≤ 100 := by
  rw [round1]
  have hnn : (0 : ℤ) ≤ round_half_even (q * 10) :=
    round_half_even_nonneg (q * 10) (by linarith)
  have hle : round_half_even (q * 10) ≤ (1000 : ℤ) :=
    round_half_even_le (q * 10) 1000 (by push_cast; linarith)
  constructor
  · apply div_nonneg _ (by norm_num)
    exact_mod_cast hnn
  · rw [div_le_iff (by norm_num)]
    have : (round_half_even (q * 10) : ℚ) ≤ 1000 := by exact_mod_cast hle
    linarith

theorem safe_val_bounds (o : Option ℚ) (h : ∀ q, o = some q → 0 ≤ q ∧ q ≤ 1) :
    0 ≤ safe_val o ∧ safe_val o ≤ 1 := by
  rcases o with _ | q
  · rw [safe_val]
    norm_num
  · have := h q rfl
    rw [safe_val]
    simpa using this

theorem rawScore_bounds (p d m a : ℚ) (hp : 0 ≤ p ∧ p ≤ 1) (hd : 0 ≤ d ∧ d ≤ 1)
    (hm : 0 ≤ m ∧ m ≤ 1) (ha : 0 ≤ a ∧ a ≤ 1) :
    0 ≤ rawScore p d m a ∧ rawScore p d m a ≤ 1 := by
  obtain ⟨hp1, hp2⟩ := hp
  obtain ⟨hd1, hd2⟩ := hd
  obtain ⟨hm1, hm2⟩ := hm
  obtain ⟨ha1, ha2⟩ := ha
  rw [rawScore]
  constructor <;> nlinarith

theorem mkPreRow_score (c : Car) (g p d m a : Option ℚ) :
    (mkPreRow c g p d m a).value_score =
      round1 (rawScore (safe_val p) (safe_val d) (safe_val m) (safe_val a) * 100) := rfl

theorem mkPreRow_score_bounds (c : Car) (g p d m a : Option ℚ)
    (hp : ∀ q, p = some q → 0 ≤ q ∧ q ≤ 1) (hd : ∀ q, d = some q → 0 ≤ q ∧ q ≤ 1)
    (hm : ∀ q, m = some q → 0 ≤ q ∧ q ≤ 1) (ha : ∀ q, a = some q → 0 ≤ q ∧ q ≤ 1) :
    0 ≤ (mkPreRow c g p d m a).value_score ∧ (mkPreRow c g p d m a).value_score ≤ 100 := by
  rw [mkPreRow_score]
  obtain ⟨hr0, hr1⟩ := rawScore_bounds (safe_val p) (safe_val d) (safe_val m) (safe_val a)
    (safe_val_bounds p hp) (safe_val_bounds d hd) (safe_val_bounds m hm) (safe_val_bounds a ha)
  exact round1_bounds _ (by linarith) (by linarith)

theorem all_absent_score : round1 (rawScore (safe_val none) (safe_val none)
    (safe_val none) (safe_val none) * 100) = 50 := by
  decide

/- ---------- the returned rows ---------- -/

theorem compute_rows_eq (df : List Car) (hdf : df ≠ []) :
    (compute_value_scores df).rows = attachRanks 1 (sortValuesDescRows (preRows df)) := by
  rw [compute_value_scores, if_neg (by simpa [List.isEmpty_iff] using hdf)]

theorem compute_rows_length (df : List Car) (hdf : df ≠ []) :
    (compute_value_scores df).rows.length = df.length := by
  rw [compute_rows_eq df hdf, attachRanks_length, sortValuesDescRows_length, preRows_length]

theorem compute_rows_mem_struct (df : List Car) (r : ScoredCar)
    (hr : r ∈ (compute_value_scores df).rows) :
    ∃ i j, i < df.length ∧ 1 ≤ j ∧ j ≤ df.length ∧
      r = withRank (mkPreRow (df.getD i dummyCar) ((carAgeCol df).getD i none)
        ((norm_col (priceCol df) false).getD i none)
        ((norm_col (deprCol df) false).getD i none)
        ((norm_col (mileageCol df) false).getD i none)
        ((norm_col (carAgeCol df) false).getD i none)) j := by
  rcases List.eq_nil_or_concat df with rfl | _
  · rw [compute_value_scores] at hr
    simp at hr
  · have hdf : df ≠ [] := by rename_i h; obtain ⟨a, b, rfl⟩ := h; simp
    rw [compute_rows_eq df hdf] at hr
    obtain ⟨p, hp, j, hj1, hj2, hj3⟩ := attachRanks_mem 1 _ r hr
    have hp2 : p ∈ preRows df := (sortValuesDescRows_perm (preRows df)).mem_iff.mp hp
    obtain ⟨i, hi, hpi⟩ := preRows_mem_struct df p hp2
    refine ⟨i, j, hi, hj2, ?_, by rw [hj1, hpi]⟩
    rw [sortValuesDescRows_length, preRows_length] at hj3
    omega

theorem compute_rows_mem_of_mem (df : List Car) (i : ℕ) (hi : i < df.length) :
    ∃ j, 1 ≤ j ∧ j ≤ df.length ∧
      withRank ((preRows df).getD i dummyPreRow) j ∈ (compute_value_scores df).rows := by
  have hdf : df ≠ [] := by
    intro h
    rw [h] at hi
    simp at hi
  have hi2 : i < (preRows df).length := by rw [preRows_length]; exact hi
  have hp : (preRows df).getD i dummyPreRow ∈ preRows df := by
    rw [List.getD_eq_getElem _ _ hi2]
    exact (preRows df).getElem_mem hi2
  have hp2 : (preRows df).getD i dummyPreRow ∈ sortValuesDescRows (preRows df) :=
    (sortValuesDescRows_perm (preRows df)).mem_iff.mpr hp
  obtain ⟨j, hj1, hj2, hj3⟩ := attachRanks_mem_of_mem 1 _ _ hp2
  rw [sortValuesDescRows_length, preRows_length] at hj2
  refine ⟨j, hj1, by omega, ?_⟩
  rw [compute_rows_eq df hdf]
  exact hj3

theorem head?_eq_getD {α : Type} (l : List α) (x : α) (d : α) (h : l.head? = some x) :
    l.getD 0 d = x := by
  cases l with
  | nil => simp at h
  | cons y ys =>
    simp at h
    simp [List.getD, h]

/-- C3 amended: each of the four per-attribute normalized scores lies in
[0,1] when present, and a record's normalized score for an attribute is
present exactly when that record's own raw attribute is present (car_age
standing in for year); in particular it is absent for every record when the
entire batch lacks the attribute. -/
theorem c3_normalized_scores (df : List Car) (r : ScoredCar)
    (hr : r ∈ (compute_value_scores df).rows) :
    (r.price_norm.isSome ↔ r.car.price_sgd.isSome) ∧
    (r.depr_norm.isSome ↔ r.car.depreciation_per_year.isSome) ∧
    (r.mileage_norm.isSome ↔ r.car.mileage_km.isSome) ∧
    (r.age_norm.isSome ↔ r.car.year.isSome) ∧
    (∀ q, r.price_norm = some q → 0 ≤ q ∧ q ≤ 1) ∧
    (∀ q, r.depr_norm = some q → 0 ≤ q ∧ q ≤ 1) ∧
    (∀ q, r.mileage_norm = some q → 0 ≤ q ∧ q ≤ 1) ∧
    (∀ q, r.age_norm = some q → 0 ≤ q ∧ q ≤ 1) := by
  obtain ⟨i, j, hi, hj1, hj2, rfl⟩ := compute_rows_mem_struct df r hr
  simp only [withRank, mkPreRow]
  have hplen : i < (priceCol df).length := by rw [priceCol_length]; exact hi
  have hdlen : i < (deprCol df).length := by rw [deprCol_length]; exact hi
  have hmlen : i < (mileageCol df).length := by rw [mileageCol_length]; exact hi
  have hglen : i < (carAgeCol df).length := by rw [carAgeCol_length]; exact hi
  have hpval : (priceCol df).getD i none =
      ((df.getD i dummyCar).price_sgd.map fun n => (n : ℚ)) := by
    rw [priceCol, getD_map_of_lt _ df i none dummyCar hi]
  have hdval : (deprCol df).getD i none =
      ((df.getD i dummyCar).depreciation_per_year.map fun n => (n : ℚ)) := by
    rw [deprCol, getD_map_of_lt _ df i none dummyCar hi]
  have hmval : (mileageCol df).getD i none =
      ((df.getD i dummyCar).mileage_km.map fun n => (n : ℚ)) := by
    rw [mileageCol, getD_map_of_lt _ df i none dummyCar hi]
  have hgval : (carAgeCol df).getD i none =
      ((df.getD i dummyCar).year.map fun y => current_year - (y : ℚ)) := by
    rw [carAgeCol, getD_map_of_lt _ df i none dummyCar hi]
  refine ⟨?_, ?_, ?_, ?_,
    fun q h => norm_col_getD_bounds _ i q hplen h,
    fun q h => norm_col_getD_bounds _ i q hdlen h,
    fun q h => norm_col_getD_bounds _ i q hmlen h,
    fun q h => norm_col_getD_bounds _ i q hglen h⟩
  · have hb : ((norm_col (priceCol df) false).getD i none).isSome =
        (df.getD i dummyCar).price_sgd.isSome := by
      rw [norm_col_getD_isSome _ i hplen, hpval]
      cases (df.getD i dummyCar).price_sgd <;> rfl
    rw [hb]
  · have hb : ((norm_col (deprCol df) false).getD i none).isSome =
        (df.getD i dummyCar).depreciation_per_year.isSome := by
      rw [norm_col_getD_isSome _ i hdlen, hdval]
      cases (df.getD i dummyCar).depreciation_per_year <;> rfl
    rw [hb]
  · have hb : ((norm_col (mileageCol df) false).getD i none).isSome =
        (df.getD i dummyCar).mileage_km.isSome := by
      rw [norm_col_getD_isSome _ i hmlen, hmval]
      cases (df.getD i dummyCar).mileage_km <;> rfl
    rw [hb]
  · have hb : ((norm_col (carAgeCol df) false).getD i none).isSome =
        (df.getD i dummyCar).year.isSome := by
      rw [norm_col_getD_isSome _ i hglen, hgval]
      cases (df.getD i dummyCar).year <;> rfl
    rw [hb]

theorem c3_normalized_scores_witness :
    (((compute_value_scores [c3CarPresent, c3CarAbsent]).rows.headD
        dummyScored).price_norm.isSome ↔
      ((compute_value_scores [c3CarPresent, c3CarAbsent]).rows.headD
        dummyScored).car.price_sgd.isSome) ∧
    (∀ q, ((compute_value_scores [c3CarPresent, c3CarAbsent]).rows.headD
        dummyScored).price_norm = some q → 0 ≤ q ∧ q ≤ 1) := by
  obtain ⟨h1, _, _, _, h5, _⟩ :=
    c3_normalized_scores [c3CarPresent, c3CarAbsent]
      ((compute_value_scores [c3CarPresent, c3CarAbsent]).rows.headD dummyScored) (by decide)
  exact ⟨h1, h5⟩

set_option maxRecDepth 2000 in
/-- C4: per-attribute normalization over the present entries: when all
present values are equal, every present record gets exactly 0.5 and absent
entries stay absent; otherwise normalized = (max - x)/(max - min), the
minimum present value maps to 1.0 and the maximum to 0.0 (absent entries
again stay absent, by the same Option.map shape). -/
theorem c4_norm_col_cases (xs : List (Option ℚ)) (hne : xs.filterMap id ≠ []) :
    (colMax xs = colMin xs →
      norm_col xs false = xs.map (Option.map fun _ => (1 : ℚ) / 2)) ∧
    (colMax xs ≠ colMin xs →
      norm_col xs false =
        xs.map (Option.map fun x => (colMax xs - x) / (colMax xs - colMin xs)) ∧
      (∀ i, xs.getD i none = some (colMin xs) →
        (norm_col xs false).getD i none = some 1) ∧
      (∀ i, xs.getD i none = some (colMax xs) →
        (norm_col xs false).getD i none = some 0)) := by
  have hempty : ¬ (xs.filterMap id).isEmpty := by
    rw [List.isEmpty_iff]
    exact hne
  constructor
  · intro heq
    rw [norm_col, if_neg hempty, if_pos heq]
  · intro hneq
    have hform : norm_col xs false =
        xs.map (Option.map fun x => (colMax xs - x) / (colMax xs - colMin xs)) := by
      rw [norm_col, if_neg hempty, if_neg hneq, if_neg (by simp)]
    have hdenom : colMax xs - colMin xs ≠ 0 := fun h => hneq (by linarith)
    refine ⟨hform, ?_, ?_⟩
    · intro i hmin
      have hi : i < xs.length := by
        by_contra hcon
        rw [List.getD_eq_default _ _ (Nat.le_of_not_lt hcon)] at hmin
        simp at hmin
      rw [hform, getD_map_of_lt _ xs i none none hi, hmin]
      simp only [Option.map_some']
      rw [div_self hdenom]
    · intro i hmax
      have hi : i < xs.length := by
        by_contra hcon
        rw [List.getD_eq_default _ _ (Nat.le_of_not_lt hcon)] at hmax
        simp at hmax
      rw [hform, getD_map_of_lt _ xs i none none hi, hmax]
      simp only [Option.map_some']
      rw [sub_self, zero_div]

theorem c4_norm_col_cases_witness :
    (norm_col [some (1 : ℚ), none, some 3] false =
      [some (1 : ℚ), none, some 3].map (Option.map fun x =>
        (colMax [some (1 : ℚ), none, some 3] - x) /
          (colMax [some (1 : ℚ), none, some 3] - colMin [some (1 : ℚ), none, some 3]))) ∧
    (norm_col [some (1 : ℚ), none, some 3] false).getD 0 none = some 1 ∧
    (norm_col [some (1 : ℚ), none, some 3] false).getD 2 none = some 0 ∧
    (norm_col [some (2 : ℚ), none, some 2] false =
      [some (2 : ℚ), none, some 2].map (Option.map fun _ => (1 : ℚ) / 2)) := by
  obtain ⟨_, h2⟩ := c4_norm_col_cases [some (1 : ℚ), none, some 3] (by decide)
  obtain ⟨e1, e2, e3⟩ := h2 (by decide)
  obtain ⟨g1, _⟩ := c4_norm_col_cases [some (2 : ℚ), none, some 2] (by decide)
  exact ⟨e1, e2 0 (by decide), e3 2 (by decide), g1 (by decide)⟩

/-- C5: a record missing all four scored attributes (price_sgd,
depreciation_per_year, mileage_km, year) still appears in the ranked
output, every such record's value_score is exactly 50.0, and every output
row carries a rank between 1 and N. -/
theorem c5_missing_data_neutral (df : List Car) (c : Car) (hc : c ∈ df)
    (hcp : c.price_sgd = none) (hcd : c.depreciation_per_year = none)
    (hcm : c.mileage_km = none) (hcy : c.year = none) :
    (∃ r ∈ (compute_value_scores df).rows, r.car = c) ∧
    (∀ r ∈ (compute_value_scores df).rows,
      r.car.price_sgd = none → r.car.depreciation_per_year = none →
      r.car.mileage_km = none → r.car.year = none → r.value_score = 50) ∧
    (∀ r ∈ (compute_value_scores df).rows,
      1 ≤ r.value_rank ∧ r.value_rank ≤ df.length) := by
  refine ⟨?_, ?_, ?_⟩
  · rw [List.mem_iff_getElem] at hc
    obtain ⟨i, hi, hci⟩ := hc
    obtain ⟨j, hj1, hj2, hj3⟩ := compute_rows_mem_of_mem df i hi
    refine ⟨withRank ((preRows df).getD i dummyPreRow) j, hj3, ?_⟩
    rw [preRows_getD df i hi]
    simp only [withRank, mkPreRow]
    rw [List.getD_eq_getElem _ _ hi, hci]
  · intro r hr hp hd hm hy
    obtain ⟨i, j, hi, hj1, hj2, rfl⟩ := compute_rows_mem_struct df r hr
    simp only [withRank, mkPreRow] at hp hd hm hy ⊢
    have hplen : i < (priceCol df).length := by rw [priceCol_length]; exact hi
    have hdlen : i < (deprCol df).length := by rw [deprCol_length]; exact hi
    have hmlen : i < (mileageCol df).length := by rw [mileageCol_length]; exact hi
    have hglen : i < (carAgeCol df).length := by rw [carAgeCol_length]; exact hi
    have hpcol : (priceCol df).getD i none = none := by
      rw [priceCol, getD_map_of_lt _ df i none dummyCar hi, hp]
      rfl
    have hdcol : (deprCol df).getD i none = none := by
      rw [deprCol, getD_map_of_lt _ df i none dummyCar hi, hd]
      rfl
    have hmcol : (mileageCol df).getD i none = none := by
      rw [mileageCol, getD_map_of_lt _ df i none dummyCar hi, hm]
      rfl
    have hgcol : (carAgeCol df).getD i none = none := by
      rw [carAgeCol, getD_map_of_lt _ df i none dummyCar hi, hy]
      rfl
    have hnone : ∀ (col : List (Option ℚ)), i < col.length → col.getD i none = none →
        (norm_col col false).getD i none = none := by
      intro col hlen hcol
      have := norm_col_getD_isSome col i hlen
      rw [hcol] at this
      rcases hval : (norm_col col false).getD i none with _ | v
      · rfl
      · rw [hval] at this
        simp at this
    rw [hnone _ hplen hpcol, hnone _ hdlen hdcol, hnone _ hmlen hmcol,
      hnone _ hglen hgcol, all_absent_score]
  · intro r hr
    obtain ⟨i, j, hi, hj1, hj2, rfl⟩ := compute_rows_mem_struct df r hr
    simp only [withRank]
    exact ⟨hj1, hj2⟩

def c5Car : Car := { title := some "bare" }

theorem c5_missing_data_neutral_witness :
    (∃ r ∈ (compute_value_scores [c3CarPresent, c5Car]).rows, r.car = c5Car) ∧
    (∀ r ∈ (compute_value_scores [c3CarPresent, c5Car]).rows,
      r.car.price_sgd = none → r.car.depreciation_per_year = none →
      r.car.mileage_km = none → r.car.year = none → r.value_score = 50) ∧
    (∀ r ∈ (compute_value_scores [c3CarPresent, c5Car]).rows,
      1 ≤ r.value_rank ∧ r.value_rank ≤ ([c3CarPresent, c5Car] : List Car).length) :=
  c5_missing_data_neutral [c3CarPresent, c5Car] c5Car (by decide) rfl rfl rfl rfl

/-- C6: for a non-empty batch every value_score lies in [0,100], the
assigned value_rank column is exactly the contiguous sequence 1..N, and the
first row (rank 1) carries the highest value_score. -/
theorem c6_scores_ranks (df : List Car) (hdf : df ≠ []) :
    (∀ r ∈ (compute_value_scores df).rows, 0 ≤ r.value_score ∧ r.value_score ≤ 100) ∧
    (compute_value_scores df).rows.map (fun r => r.value_rank) = List.range' 1 df.length ∧
    (∀ h2, (compute_value_scores df).rows.head? = some h2 →
      ∀ r ∈ (compute_value_scores df).rows, r.value_score ≤ h2.value_score) := by
  refine ⟨?_, ?_, ?_⟩
  · intro r hr
    obtain ⟨i, j, hi, _, _, rfl⟩ := compute_rows_mem_struct df r hr
    exact mkPreRow_score_bounds (df.getD i dummyCar) ((carAgeCol df).getD i none)
      ((norm_col (priceCol df) false).getD i none)
      ((norm_col (deprCol df) false).getD i none)
      ((norm_col (mileageCol df) false).getD i none)
      ((norm_col (carAgeCol df) false).getD i none)
      (fun q h => norm_col_getD_bounds _ i q (by rw [priceCol_length]; exact hi) h)
      (fun q h => norm_col_getD_bounds _ i q (by rw [deprCol_length]; exact hi) h)
      (fun q h => norm_col_getD_bounds _ i q (by rw [mileageCol_length]; exact hi) h)
      (fun q h => norm_col_getD_bounds _ i q (by rw [carAgeCol_length]; exact hi) h)
  · rw [compute_rows_eq df hdf, attachRanks_map_rank, sortValuesDescRows_length,
      preRows_length]
  · intro h2 hhead r hr
    rw [List.mem_iff_getElem] at hr
    obtain ⟨k, hk, hrk⟩ := hr
    have hklen : k < df.length := by rw [← compute_rows_length df hdf]; exact hk
    have hklen2 : k < (preRows df).length := by rw [preRows_length]; exact hklen
    have hsortlen : k < (sortValuesDescRows (preRows df)).length := by
      rw [sortValuesDescRows_length]; exact hklen2
    have e_k : r = withRank ((sortValuesDescRows (preRows df)).getD k dummyPreRow) (1 + k) := by
      rw [← hrk, ← List.getD_eq_getElem _ dummyScored hk, compute_rows_eq df hdf,
        attachRanks_getD 1 _ k hsortlen]
    have e_0 : h2 = withRank ((sortValuesDescRows (preRows df)).getD 0 dummyPreRow) 1 := by
      rw [← head?_eq_getD _ h2 dummyScored hhead, compute_rows_eq df hdf,
        attachRanks_getD 1 _ 0 (by rw [sortValuesDescRows_length]; omega)]
    rw [e_k, e_0]
    exact sortValuesDescRows_desc (preRows df) 0 k (Nat.zero_le k) hklen2

/-- the two example records of the spec (section 8). -/
def c6CarA : Car :=
  { title := some "A", price_sgd := some 50000, mileage_km := some 10000,
    depreciation_per_year := some 8000, year := some 2023 }

def c6CarB : Car :=
  { title := some "B", price_sgd := some 80000, mileage_km := some 60000,
    depreciation_per_year := some 12000, year := some 2015 }

theorem c6_scores_ranks_witness :
    (∀ r ∈ (compute_value_scores [c6CarA, c6CarB]).rows,
      0 ≤ r.value_score ∧ r.value_score ≤ 100) ∧
    (compute_value_scores [c6CarA, c6CarB]).rows.map (fun r => r.value_rank) =
      List.range' 1 ([c6CarA, c6CarB] : List Car).length ∧
    (∀ h2, (compute_value_scores [c6CarA, c6CarB]).rows.head? = some h2 →
      ∀ r ∈ (compute_value_scores [c6CarA, c6CarB]).rows,
        r.value_score ≤ h2.value_score) :=
  c6_scores_ranks [c6CarA, c6CarB] (by decide)
